import Mathlib

/-!
Verification development for the mock-api-server repository.

The TypeScript sources are shallowly embedded as pure Lean functions:
JavaScript strings are modelled at the character level (`String.data`),
machine integers and `Date.now()` timestamps as `Nat`, fallible or
throwing code as `Option`, and the stateful storage classes as explicit
state passing over a `StorageData` value.  Platform primitives that are
not part of the repository (Web Crypto's HMAC-SHA256, `btoa`/`atob`,
`JSON.stringify`/`JSON.parse` of the JWT payload object) are modelled
explicitly below, with their modelling choices documented at each
definition.
-/

/-! ## Data model (src/types.ts) -/

/-- Project record (src/types.ts).  `description` is an optional field. -/
structure Project where
  id : String
  name : String
  description : Option String
  basePath : String
  createdAt : Nat
  updatedAt : Nat
deriving DecidableEq, Repr

/-- Endpoint response configuration (src/types.ts).  The `body : unknown`
JSON value is modelled opaquely by its serialized form. -/
structure EndpointResponse where
  status : Nat
  headers : List (String × String)
  body : String
  delay : Option Nat
deriving DecidableEq, Repr

/-- Endpoint record (src/types.ts).  `method` is one of the `HttpMethod`
strings; it is kept as a `String` because the code compares it with `===`
against the raw request method. -/
structure Endpoint where
  id : String
  projectId : String
  path : String
  method : String
  response : EndpointResponse
  enabled : Bool
  createdAt : Nat
  updatedAt : Nat
deriving DecidableEq, Repr

/-- Global settings singleton (src/types.ts). -/
structure GlobalSettings where
  corsOrigins : List String
  corsHeaders : List String
  corsMethods : List String
  defaultHeaders : List (String × String)
  authEnabled : Bool
deriving DecidableEq, Repr

/-- Storage data triple (src/types.ts). -/
structure StorageData where
  projects : List Project
  endpoints : List Endpoint
  settings : GlobalSettings
deriving DecidableEq, Repr

/-- DEFAULT_SETTINGS (src/types.ts). -/
def DEFAULT_SETTINGS : GlobalSettings :=
  { corsOrigins := ["*"]
    corsHeaders := ["Content-Type", "Authorization", "X-Requested-With"]
    corsMethods := ["GET", "POST", "PUT", "DELETE", "PATCH", "OPTIONS"]
    defaultHeaders := [("Content-Type", "application/json")]
    authEnabled := true }

/-! ## JavaScript string helpers

JS strings are modelled at the character level: `startsWith` and
`substring(n)` act on the character list underlying a Lean `String`. -/

/-- Model of JavaScript `fullPath.startsWith(prefixStr)`. -/
def strStartsWith (s pre : String) : Bool :=
  pre.data.isPrefixOf s.data

/-- Model of JavaScript `s.substring(n)` (drop the first `n` characters). -/
def strDropChars (s : String) (n : Nat) : String :=
  String.mk (s.data.drop n)

/-- Character count of a string (JS `s.length` on the embedded strings). -/
def strLen (s : String) : Nat := s.data.length

/-! ## Partial-update patches (TypeScript `Partial<...>` bodies)

A `Partial<Project>` / `Partial<Endpoint>` request body is modelled as a
record of `Option` fields: `some v` means the property is present in the
patch object and spreads over the stored record, `none` means absent. -/

/-- Patch for `updateProject` (a `Partial<Project>` body). -/
structure ProjectPatch where
  id : Option String
  name : Option String
  description : Option (Option String)
  basePath : Option String
  createdAt : Option Nat
  updatedAt : Option Nat
deriving DecidableEq, Repr

/-- The empty patch `{}`. -/
def emptyProjectPatch : ProjectPatch :=
  { id := none, name := none, description := none, basePath := none
    createdAt := none, updatedAt := none }

/-- Patch for `updateEndpoint` (a `Partial<Endpoint>` body). -/
structure EndpointPatch where
  id : Option String
  projectId : Option String
  path : Option String
  method : Option String
  response : Option EndpointResponse
  enabled : Option Bool
  createdAt : Option Nat
  updatedAt : Option Nat
deriving DecidableEq, Repr

/-- The empty patch `{}` for endpoints. -/
def emptyEndpointPatch : EndpointPatch :=
  { id := none, projectId := none, path := none, method := none
    response := none, enabled := none, createdAt := none, updatedAt := none }

/-- Result of the JS spread `{...project, ...data, id, updatedAt: Date.now()}`
in `MemoryStorage.updateProject` / `KVStorage.updateProject`: patch fields
override stored fields, after which `id` is forced back to the route id and
`updatedAt` to the current time.  Note that a `createdAt` supplied in the
patch survives the spread because only `id` and `updatedAt` are re-forced. -/
def mergeProject (p : Project) (patch : ProjectPatch) (now : Nat) : Project :=
  { id := p.id
    name := patch.name.getD p.name
    description := patch.description.getD p.description
    basePath := patch.basePath.getD p.basePath
    createdAt := patch.createdAt.getD p.createdAt
    updatedAt := now }

/-- Result of the JS spread `{...endpoint, ...data, id, updatedAt: Date.now()}`
in `updateEndpoint`. -/
def mergeEndpoint (e : Endpoint) (patch : EndpointPatch) (now : Nat) : Endpoint :=
  { id := e.id
    projectId := patch.projectId.getD e.projectId
    path := patch.path.getD e.path
    method := patch.method.getD e.method
    response := patch.response.getD e.response
    enabled := patch.enabled.getD e.enabled
    createdAt := patch.createdAt.getD e.createdAt
    updatedAt := now }

/-! ## MemoryStorage (src/storage/memory.ts)

The class's mutable `this.data` is threaded explicitly; each mutating
method returns its JS return value together with the new state.  The
file-save side effects are I/O and not modelled. -/

namespace MemoryStorage

/-- `getProjects()` returns a copy of the projects list. -/
def getProjects (d : StorageData) : List Project := d.projects

/-- `getProject(id)`: first project with the given id, or null. -/
def getProject (d : StorageData) (id : String) : Option Project :=
  d.projects.find? (fun p => p.id = id)

/-- `getEndpoints(projectId?)`: the JS truthiness check `if (projectId)`
means that both an absent argument and the empty string return the full
endpoints list; any other id filters by `projectId`. -/
def getEndpoints (d : StorageData) (projectId : Option String) : List Endpoint :=
  match projectId with
  | some pid => if pid = "" then d.endpoints else d.endpoints.filter (fun e => e.projectId = pid)
  | none => d.endpoints

/-- `getEndpoint(id)`. -/
def getEndpoint (d : StorageData) (id : String) : Option Endpoint :=
  d.endpoints.find? (fun e => e.id = id)

/-- `getEndpointByPath(fullPath, _subPath, method)` (memory.ts lines
121-137): pick the first project whose `basePath` is a string prefix of
`fullPath`, compute the relative path (empty remainder becomes "/" via
`|| '/'`), and return the first enabled endpoint of that project matching
path and method exactly. -/
def getEndpointByPath (d : StorageData) (fullPath _subPath method : String) :
    Option Endpoint :=
  match d.projects.find? (fun p => strStartsWith fullPath p.basePath) with
  | none => none
  | some project =>
    let rest := strDropChars fullPath (strLen project.basePath)
    let relativePath := if rest = "" then "/" else rest
    d.endpoints.find? (fun e =>
      e.projectId = project.id && e.path = relativePath &&
      e.method = method && e.enabled)

/-- Replace the first project matching the id by its merge with the patch
(`findIndex` + in-place assignment in `updateProject`).  Returns the JS
return value (`null` when the id is absent) and the new list. -/
def updateProjectList (ps : List Project) (id : String) (patch : ProjectPatch)
    (now : Nat) : Option Project × List Project :=
  match ps with
  | [] => (none, [])
  | p :: rest =>
    if p.id = id then
      let p' := mergeProject p patch now
      (some p', p' :: rest)
    else
      let (r, rest') := updateProjectList rest id patch now
      (r, p :: rest')

/-- `updateProject(id, data)`. -/
def updateProject (d : StorageData) (id : String) (patch : ProjectPatch)
    (now : Nat) : Option Project × StorageData :=
  let (r, ps) := updateProjectList d.projects id patch now
  (r, { d with projects := ps })

/-- Replace the first endpoint matching the id by its merge with the patch
(`findIndex` + in-place assignment in `updateEndpoint`). -/
def updateEndpointList (es : List Endpoint) (id : String) (patch : EndpointPatch)
    (now : Nat) : Option Endpoint × List Endpoint :=
  match es with
  | [] => (none, [])
  | e :: rest =>
    if e.id = id then
      let e' := mergeEndpoint e patch now
      (some e', e' :: rest)
    else
      let (r, rest') := updateEndpointList rest id patch now
      (r, e :: rest')

/-- `updateEndpoint(id, data)`. -/
def updateEndpoint (d : StorageData) (id : String) (patch : EndpointPatch)
    (now : Nat) : Option Endpoint × StorageData :=
  let (r, es) := updateEndpointList d.endpoints id patch now
  (r, { d with endpoints := es })

/-- `deleteEndpointsByProject(projectId)`: keep only endpoints whose
`projectId` differs; returns the number deleted. -/
def deleteEndpointsByProject (d : StorageData) (projectId : String) :
    Nat × StorageData :=
  let kept := d.endpoints.filter (fun e => e.projectId ≠ projectId)
  (d.endpoints.length - kept.length, { d with endpoints := kept })

/-- Remove the first project matching the id (`findIndex` + `splice(i, 1)`);
`none` when the id is absent. -/
def deleteProjectList : List Project → String → Option (List Project)
  | [], _ => none
  | p :: rest, id =>
    if p.id = id then some rest
    else (deleteProjectList rest id).map (fun rest' => p :: rest')

/-- `deleteProject(id)` (memory.ts lines 99-107): `findIndex`; absent id
returns false and leaves the state unchanged; otherwise `splice` removes
the first matching project, and the endpoint cascade runs. -/
def deleteProject (d : StorageData) (id : String) : Bool × StorageData :=
  match deleteProjectList d.projects id with
  | none => (false, d)
  | some ps =>
    let d1 : StorageData := { d with projects := ps }
    let (_, d2) := deleteEndpointsByProject d1 id
    (true, d2)

/-- `updateSettings(settings)`: shallow merge over the singleton.  The
patch is a record of `Option` fields like the other patches. -/
def updateSettings (d : StorageData) (corsOrigins corsHeaders corsMethods :
    Option (List String)) (defaultHeaders : Option (List (String × String)))
    (authEnabled : Option Bool) : GlobalSettings × StorageData :=
  let s := d.settings
  let s' : GlobalSettings :=
    { corsOrigins := corsOrigins.getD s.corsOrigins
      corsHeaders := corsHeaders.getD s.corsHeaders
      corsMethods := corsMethods.getD s.corsMethods
      defaultHeaders := defaultHeaders.getD s.defaultHeaders
      authEnabled := authEnabled.getD s.authEnabled }
  (s', { d with settings := s' })

end MemoryStorage

/-! ## KVStorage (src/storage/kv.ts)

Only `getEndpointByPath` is needed by the claims; the KV store's two
lists are passed explicitly (they are read with `kv.get`). -/

namespace KVStorage

/-- `getEndpointByPath(basePath, path, method)` (kv.ts lines 95-112): pick
the first project whose `basePath` field is a prefix of the first
argument, then look up `relativePath = basePath.substring(p.basePath.length) + path`.
Unlike memory.ts there is no `|| '/'` fallback for an empty remainder. -/
def getEndpointByPath (projects : List Project) (endpoints : List Endpoint)
    (basePath path method : String) : Option Endpoint :=
  match projects.find? (fun p => strStartsWith basePath p.basePath) with
  | none => none
  | some project =>
    let relativePath := strDropChars basePath (strLen project.basePath) ++ path
    endpoints.find? (fun e =>
      e.projectId = project.id && e.path = relativePath &&
      e.method = method && e.enabled)

end KVStorage

/-! ## CORS decision module (src/middleware/cors.ts)

Each middleware is embedded as a pure decision function from the current
settings / options, the request's `Origin` header and method, to an
outcome.  The header bag accumulated through `c.header(...)` is carried
in the outcome; the request pipelines below feed it to the downstream
handler, so "the handler is never invoked" is expressed by the pipeline
result not depending on the handler argument. -/

/-- Outcome of a CORS middleware on one request. -/
inductive CorsOutcome where
  /-- `c.text('Origin not allowed', 403)`: request rejected, `next()` not called. -/
  | forbidden
  /-- `new Response(null, {status: 204})` on an OPTIONS request, after the
  given headers were computed; `next()` not called. -/
  | preflight (headers : List (String × String))
  /-- `await next()` with the given headers accumulated. -/
  | proceed (headers : List (String × String))
deriving DecidableEq, Repr

/-- Header list of an outcome. -/
def CorsOutcome.headersOf : CorsOutcome → List (String × String)
  | .forbidden => []
  | .preflight hs => hs
  | .proceed hs => hs

/-- `c.req.header('Origin') || '*'`: a missing (or empty, by JS
truthiness) Origin header is replaced by the literal string `*`. -/
def effOrigin (originHeader : Option String) : String :=
  match originHeader with
  | none => "*"
  | some s => if s = "" then "*" else s

/-- `settings.corsOrigins.includes('*') ? '*' : origin` in the dynamic
middleware. -/
def dynAllowedOrigin (settings : GlobalSettings) (origin : String) : String :=
  if settings.corsOrigins.contains "*" then "*" else origin

/-- The headers set by the dynamic middleware once the origin is allowed:
the four base CORS headers, then `Access-Control-Allow-Credentials: true`
when the allowed origin is a specific origin rather than `*`. -/
def dynCorsHeaders (settings : GlobalSettings) (origin : String) :
    List (String × String) :=
  let allowedOrigin := dynAllowedOrigin settings origin
  [("Access-Control-Allow-Origin", allowedOrigin),
   ("Access-Control-Allow-Methods", String.intercalate ", " settings.corsMethods),
   ("Access-Control-Allow-Headers", String.intercalate ", " settings.corsHeaders),
   ("Access-Control-Max-Age", "86400")] ++
  (if allowedOrigin ≠ "*" then [("Access-Control-Allow-Credentials", "true")] else [])

/-- Dynamic CORS middleware `corsMiddleware` (cors.ts lines 17-48): the
settings passed here are the value freshly read from storage for this
request.  Rejects outright with 403 when the origin is neither
`*`-allowed nor literally listed; otherwise sets the CORS headers and
short-circuits OPTIONS to an empty 204. -/
def corsMiddleware (settings : GlobalSettings) (originHeader : Option String)
    (method : String) : CorsOutcome :=
  let origin := effOrigin originHeader
  let isAllowed := settings.corsOrigins.contains "*" ||
    settings.corsOrigins.contains origin
  if !isAllowed then .forbidden
  else
    let hdrs := dynCorsHeaders settings origin
    if method = "OPTIONS" then .preflight hdrs else .proceed hdrs

/-- `origins.includes('*') ? '*' : origins.includes(origin) ? origin : null`
in the static middleware: note `*` takes precedence over a literal listing. -/
def staticAllowedOrigin (origins : List String) (origin : String) : Option String :=
  if origins.contains "*" then some "*"
  else if origins.contains origin then some origin
  else none

/-- The headers set by the static middleware: none at all when the origin
decision is null, otherwise the four base headers plus the credentials
header for a specific origin. -/
def staticCorsHeaders (origins methods headerNames : List String) (maxAge : Nat)
    (origin : String) : List (String × String) :=
  match staticAllowedOrigin origins origin with
  | none => []
  | some allowedOrigin =>
    [("Access-Control-Allow-Origin", allowedOrigin),
     ("Access-Control-Allow-Methods", String.intercalate ", " methods),
     ("Access-Control-Allow-Headers", String.intercalate ", " headerNames),
     ("Access-Control-Max-Age", toString maxAge)] ++
    (if allowedOrigin ≠ "*" then [("Access-Control-Allow-Credentials", "true")] else [])

/-- Static CORS middleware `staticCorsMiddleware` (cors.ts lines 51-81):
never rejects; emits headers only when the origin decision is non-null;
short-circuits OPTIONS to an empty 204 in every case. -/
def staticCorsMiddleware (origins methods headerNames : List String)
    (maxAge : Nat) (originHeader : Option String) (method : String) : CorsOutcome :=
  let origin := effOrigin originHeader
  let hdrs := staticCorsHeaders origins methods headerNames maxAge origin
  if method = "OPTIONS" then .preflight hdrs else .proceed hdrs

/-! ## Request pipelines

A minimal HTTP response value and the composition of a CORS middleware
with a downstream handler, mirroring the node entry point's
`app.use('*', corsMiddleware(getSettings)); app.all('*', mockHandler)`
and `app.use('/api/admin/*', staticCorsMiddleware())`. -/

/-- Response value: status, headers, and an optional body (`none` is the
empty body of `new Response(null, ...)`). -/
structure HttpResponse where
  status : Nat
  headers : List (String × String)
  body : Option String
deriving DecidableEq, Repr

/-- Run the dynamic CORS middleware in front of a handler.  The handler
receives the accumulated header bag. -/
def runDynamic (settings : GlobalSettings) (originHeader : Option String)
    (method : String) (handler : List (String × String) → HttpResponse) :
    HttpResponse :=
  match corsMiddleware settings originHeader method with
  | .forbidden => ⟨403, [], some "Origin not allowed"⟩
  | .preflight hdrs => ⟨204, hdrs, none⟩
  | .proceed hdrs => handler hdrs

/-- Run the static CORS middleware in front of a handler. -/
def runStatic (origins methods headerNames : List String) (maxAge : Nat)
    (originHeader : Option String) (method : String)
    (handler : List (String × String) → HttpResponse) : HttpResponse :=
  match staticCorsMiddleware origins methods headerNames maxAge originHeader method with
  | .forbidden => ⟨403, [], some "Origin not allowed"⟩
  | .preflight hdrs => ⟨204, hdrs, none⟩
  | .proceed hdrs => handler hdrs

/-- The mock responder (the catch-all in the node entry point): resolve
the endpoint; on a miss, apply the default headers and answer 404 with
the structured not-found message; on a hit, apply default headers then
endpoint headers and answer the configured status and body.  The
response delay is a timing effect and not modelled. -/
def mockHandler (d : StorageData) (settings : GlobalSettings)
    (path method : String) (hdrs : List (String × String)) : HttpResponse :=
  match MemoryStorage.getEndpointByPath d path "" method with
  | none =>
    ⟨404, hdrs ++ settings.defaultHeaders,
      some ("No mock endpoint configured for " ++ method ++ " " ++ path)⟩
  | some endpoint =>
    ⟨endpoint.response.status,
      hdrs ++ settings.defaultHeaders ++ endpoint.response.headers,
      some endpoint.response.body⟩

/-! ## Token service (src/middleware/auth.ts: createToken / verifyToken)

The JWT payload and the pure parts of token issuance and verification
are embedded exactly; the two platform primitives are modelled:

* `crypto.subtle` HMAC-SHA256 is an external keyed hash.  It is taken as
  an explicit parameter `hmac : String → String → List Nat` producing the
  raw mac bytes; the code's `sign` is then `base64UrlEncode ∘ hmac`.
* `btoa` / `atob` are modelled by an explicit URL-safe base64 codec on
  byte lists; `btoa` throws on characters above U+00FF, modelled by
  `stringToBytes` returning `none`.
* `JSON.stringify` / `JSON.parse` of the payload object are modelled by
  an explicit serializer following JSON string-escaping rules and an
  exact parser of the serialized `{"sub":...,"iat":...,"exp":...}` shape
  (`JSON.parse` restricted to payload objects). -/

/-- JWT payload (src/types.ts `JWTPayload`). -/
structure JWTPayload where
  sub : String
  exp : Nat
  iat : Nat
deriving DecidableEq, Repr

/-- Character code of a char as a `Nat` (a JS string code unit). -/
def charCode (c : Char) : Nat := c.toNat

/-- The URL-safe base64 alphabet (the net effect of `btoa` followed by
replacing `+` with `-` and `/` with `_`): the 26 capital letters, the 26
small letters, the 10 digits, then `-` and `_`. -/
def b64Alphabet : List Char :=
  (List.range 26).map (fun n => Char.ofNat (65 + n)) ++
  (List.range 26).map (fun n => Char.ofNat (97 + n)) ++
  (List.range 10).map (fun n => Char.ofNat (48 + n)) ++ ['-', '_']

/-- Encode a 6-bit group as a base64url character. -/
def b64Char (n : Nat) : Char := b64Alphabet.getD n 'A'

/-- Index of a character in a list (JS `indexOf`, as an `Option`). -/
def listFindIndex (l : List Char) (c : Char) : Option Nat :=
  match l with
  | [] => none
  | a :: rest => if a = c then some 0 else (listFindIndex rest c).map (· + 1)

/-- Value of a base64 character as accepted by `atob` after the
`-`/`_` → `+`/`/` replacement in `base64UrlDecode`: the URL-safe
alphabet, plus `+` and `/` themselves. -/
def b64Val (c : Char) : Option Nat :=
  match listFindIndex b64Alphabet c with
  | some n => some n
  | none => if c = '+' then some 62 else if c = '/' then some 63 else none

/-- URL-safe, unpadded base64 encoding of a byte list: the net effect of
`base64UrlEncode` (auth.ts lines 8-11) applied to a binary string. -/
def base64UrlEncode : List Nat → List Char
  | [] => []
  | [b1] => [b64Char (b1 / 4), b64Char (b1 % 4 * 16)]
  | [b1, b2] =>
    [b64Char (b1 / 4), b64Char (b1 % 4 * 16 + b2 / 16), b64Char (b2 % 16 * 4)]
  | b1 :: b2 :: b3 :: rest =>
    b64Char (b1 / 4) :: b64Char (b1 % 4 * 16 + b2 / 16) ::
    b64Char (b2 % 16 * 4 + b3 / 64) :: b64Char (b3 % 64) ::
    base64UrlEncode rest

/-- URL-safe base64 decoding to bytes: the net effect of `base64UrlDecode`
(auth.ts lines 13-19, character replacement plus padding) followed by
`atob`; a trailing group of a single character or an invalid character
makes `atob` throw, modelled by `none`. -/
def base64UrlDecode : List Char → Option (List Nat)
  | [] => some []
  | [_] => none
  | [c1, c2] =>
    match b64Val c1, b64Val c2 with
    | some n1, some n2 => some [n1 * 4 + n2 / 16]
    | _, _ => none
  | [c1, c2, c3] =>
    match b64Val c1, b64Val c2, b64Val c3 with
    | some n1, some n2, some n3 =>
      some [n1 * 4 + n2 / 16, n2 % 16 * 16 + n3 / 4]
    | _, _, _ => none
  | c1 :: c2 :: c3 :: c4 :: rest =>
    match b64Val c1, b64Val c2, b64Val c3, b64Val c4, base64UrlDecode rest with
    | some n1, some n2, some n3, some n4, some bs =>
      some ((n1 * 4 + n2 / 16) :: (n2 % 16 * 16 + n3 / 4) :: (n3 % 4 * 64 + n4) :: bs)
    | _, _, _, _, _ => none

/-- Model of `btoa`'s input conversion: a JS string is a byte string only
when every character is below U+0100, otherwise `btoa` throws
(`InvalidCharacterError`), modelled by `none`. -/
def stringToBytes (s : String) : Option (List Nat) :=
  if s.data.all (fun c => charCode c < 256) then some (s.data.map charCode)
  else none

/-- Model of `atob`'s output conversion: decoded bytes (always below 256)
back to a string of Latin-1 characters. -/
def bytesToString (bs : List Nat) : String :=
  String.mk (bs.map Char.ofNat)

/-- Hexadecimal digit characters as produced by JSON string escaping
(digits then lowercase letters, as in JS `toString(16)`). -/
def hexDigitChar (n : Nat) : Char :=
  if n < 10 then Char.ofNat (48 + n)
  else if n < 16 then Char.ofNat (87 + n)
  else '0'

/-- Value of a hexadecimal digit character (JSON.parse accepts both
cases). -/
def hexVal (c : Char) : Option Nat :=
  if 48 ≤ charCode c ∧ charCode c ≤ 57 then some (charCode c - 48)
  else if 97 ≤ charCode c ∧ charCode c ≤ 102 then some (charCode c - 87)
  else if 65 ≤ charCode c ∧ charCode c ≤ 70 then some (charCode c - 55)
  else none

/-- JSON string escaping of one character, as `JSON.stringify` performs
it: quote and backslash are escaped, the named control escapes are used
for backspace, form feed, newline, carriage return and tab, other
control characters become `\u00XX`, and everything else is copied. -/
def escChar (c : Char) : List Char :=
  if c = '"' then ['\\', '"']
  else if c = '\\' then ['\\', '\\']
  else if charCode c = 8 then ['\\', 'b']
  else if charCode c = 9 then ['\\', 't']
  else if charCode c = 10 then ['\\', 'n']
  else if charCode c = 12 then ['\\', 'f']
  else if charCode c = 13 then ['\\', 'r']
  else if charCode c < 32 then
    ['\\', 'u', '0', '0', hexDigitChar (charCode c / 16), hexDigitChar (charCode c % 16)]
  else [c]

/-- JSON string escaping of a character list. -/
def escapeJson (l : List Char) : List Char := l.flatMap escChar

/-- Decimal digits of a natural number, most significant first
(`JSON.stringify` of an integral JS number). -/
def natDigits (n : Nat) : List Char :=
  if h : n < 10 then [hexDigitChar n]
  else natDigits (n / 10) ++ [hexDigitChar (n % 10)]
decreasing_by
  exact Nat.div_lt_self (by omega) (by omega)

/-- `JSON.stringify({sub, iat, exp})`: object-literal property order is
preserved by `JSON.stringify`. -/
def payloadJson (pl : JWTPayload) : List Char :=
  "\x7b\"sub\":\"".data ++ escapeJson pl.sub.data ++ "\",\"iat\":".data ++
  natDigits pl.iat ++ ",\"exp\":".data ++ natDigits pl.exp ++ "\x7d".data

/-- String form of the serialized payload. -/
def payloadToJson (pl : JWTPayload) : String := String.mk (payloadJson pl)

/-- The fixed serialized header `JSON.stringify({alg:'HS256', typ:'JWT'})`. -/
def headerJsonStr : String := "\x7b\"alg\":\"HS256\",\"typ\":\"JWT\"\x7d"

/-- Consume an expected literal from the front of the input. -/
def dropLit : List Char → List Char → Option (List Char)
  | [], l => some l
  | _ :: _, [] => none
  | p :: ps, c :: cs => if c = p then dropLit ps cs else none

/-- Parse a JSON string body up to and including its closing quote,
undoing the escapes of `escChar`; raw control characters are rejected as
`JSON.parse` does. -/
def parseStringBody : List Char → Option (List Char × List Char)
  | [] => none
  | c :: rest =>
    if c = '"' then some ([], rest)
    else if c = '\\' then
      match rest with
      | [] => none
      | e :: rest2 =>
        if e = '"' then (parseStringBody rest2).map (fun r => ('"' :: r.1, r.2))
        else if e = '\\' then (parseStringBody rest2).map (fun r => ('\\' :: r.1, r.2))
        else if e = 'b' then (parseStringBody rest2).map (fun r => (Char.ofNat 8 :: r.1, r.2))
        else if e = 't' then (parseStringBody rest2).map (fun r => (Char.ofNat 9 :: r.1, r.2))
        else if e = 'n' then (parseStringBody rest2).map (fun r => (Char.ofNat 10 :: r.1, r.2))
        else if e = 'f' then (parseStringBody rest2).map (fun r => (Char.ofNat 12 :: r.1, r.2))
        else if e = 'r' then (parseStringBody rest2).map (fun r => (Char.ofNat 13 :: r.1, r.2))
        else if e = 'u' then
          match rest2 with
          | h1 :: h2 :: h3 :: h4 :: rest3 =>
            match hexVal h1, hexVal h2, hexVal h3, hexVal h4 with
            | some v1, some v2, some v3, some v4 =>
              (parseStringBody rest3).map (fun r =>
                (Char.ofNat (v1 * 4096 + v2 * 256 + v3 * 16 + v4) :: r.1, r.2))
            | _, _, _, _ => none
          | _ => none
        else none
    else if charCode c < 32 then none
    else (parseStringBody rest).map (fun r => (c :: r.1, r.2))

/-- Leading decimal digits of the input. -/
def takeDigits : List Char → List Char × List Char
  | [] => ([], [])
  | c :: rest =>
    if 48 ≤ charCode c ∧ charCode c ≤ 57 then
      let (ds, r) := takeDigits rest
      (c :: ds, r)
    else ([], c :: rest)

/-- Numeric value of a list of decimal digit characters. -/
def digitsVal (ds : List Char) : Nat :=
  ds.foldl (fun acc c => acc * 10 + (charCode c - 48)) 0

/-- Parse a nonempty run of decimal digits. -/
def parseNat (l : List Char) : Option (Nat × List Char) :=
  let (ds, rest) := takeDigits l
  if ds = [] then none else some (digitsVal ds, rest)

/-- `JSON.parse` of the payload text, restricted to the exact
`{"sub":...,"iat":...,"exp":...}` object shape the service serializes;
any other input is a parse failure. -/
def jsonToPayload (s : String) : Option JWTPayload :=
  (dropLit "\x7b\"sub\":\"".data s.data).bind fun r0 =>
  (parseStringBody r0).bind fun sr =>
  (dropLit ",\"iat\":".data sr.2).bind fun r2 =>
  (parseNat r2).bind fun ir =>
  (dropLit ",\"exp\":".data ir.2).bind fun r4 =>
  (parseNat r4).bind fun er =>
  (dropLit "\x7d".data er.2).bind fun r6 =>
  if r6 = [] then some ⟨String.mk sr.1, er.1, ir.1⟩ else none

/-- Split a character list at every dot (JS `token.split('.')`). -/
def splitOnDot : List Char → List (List Char)
  | [] => [[]]
  | c :: rest =>
    if c = '.' then [] :: splitOnDot rest
    else
      match splitOnDot rest with
      | [] => [[c]]
      | h :: t => (c :: h) :: t

/-- The code's `sign(message, secret)` (auth.ts lines 22-35): HMAC-SHA256
over the message, base64url-encoded.  The mac itself is the external
primitive passed in as `hmac`. -/
def signStr (hmac : String → String → List Nat) (message secret : String) : String :=
  String.mk (base64UrlEncode (hmac message secret))

/-- `createToken(username, secret, expiresIn)` (auth.ts lines 38-53):
payload `{sub, iat: now, exp: now + expiresIn}`, both header and payload
JSON base64url-encoded (`none` when `btoa` throws on a character above
U+00FF), then the signature over `header.payload`, dot-joined. -/
def createToken (hmac : String → String → List Nat) (username secret : String)
    (now expiresIn : Nat) : Option String :=
  let payload : JWTPayload := ⟨username, now + expiresIn, now⟩
  match stringToBytes headerJsonStr, stringToBytes (payloadToJson payload) with
  | some hb, some pb =>
    let headerB64 : String := String.mk (base64UrlEncode hb)
    let payloadB64 : String := String.mk (base64UrlEncode pb)
    let signature := signStr hmac (headerB64 ++ "." ++ payloadB64) secret
    some (headerB64 ++ "." ++ payloadB64 ++ "." ++ signature)
  | _, _ => none

/-- `verifyToken(token, secret)` (auth.ts lines 56-78) at current time
`now` (seconds): split on dots and require exactly three parts;
recompute the signature over the first two parts and compare to the
third; base64-decode and parse the payload (any failure, like any caught
exception in the source, yields `none`); reject when `exp < now`. -/
def verifyToken (hmac : String → String → List Nat) (token secret : String)
    (now : Nat) : Option JWTPayload :=
  match splitOnDot token.data with
  | [h, p, s] =>
    let headerB64 : String := String.mk h
    let payloadB64 : String := String.mk p
    let signatureB64 : String := String.mk s
    let expectedSignature := signStr hmac (headerB64 ++ "." ++ payloadB64) secret
    if signatureB64 ≠ expectedSignature then none
    else
      match base64UrlDecode p with
      | none => none
      | some bs =>
        match jsonToPayload (bytesToString bs) with
        | none => none
        | some payload =>
          if payload.exp < now then none else some payload
  | _ => none

/-! ### Concrete mac used by the witnesses

The theorems about the token service hold for any collision-free keyed
mac; `hmacW` is a concrete such function (a prefix-free pairing of the
message and the secret into bytes 0/1/2), used to instantiate them. -/

/-- Prefix-free byte encoding of a character list over the bytes 0 and 1. -/
def encBits (l : List Char) : List Nat :=
  l.flatMap (fun c => List.replicate (charCode c) 0 ++ [1])

/-- A concrete injective keyed mac: the message and secret encodings
joined by the (otherwise unused) byte 2. -/
def hmacW (m s : String) : List Nat :=
  encBits m.data ++ 2 :: encBits s.data

/-! ### Token structure

Names for the three dot-separated components a successful `createToken`
produces, used to state the round-trip theorems. -/

/-- Characters of the base64url-encoded fixed header. -/
def headerB64chars : List Char :=
  base64UrlEncode (headerJsonStr.data.map charCode)

/-- Characters of the base64url-encoded payload. -/
def payloadB64chars (pl : JWTPayload) : List Char :=
  base64UrlEncode ((payloadJson pl).map charCode)

/-- The signed message `headerB64 + "." + payloadB64`. -/
def signedMessage (pl : JWTPayload) : String :=
  String.mk headerB64chars ++ "." ++ String.mk (payloadB64chars pl)

/-- Characters of the base64url-encoded signature. -/
def sigChars (hmac : String → String → List Nat) (pl : JWTPayload)
    (secret : String) : List Char :=
  base64UrlEncode (hmac (signedMessage pl) secret)

/-- The full character list of a created token. -/
def tokenChars (hmac : String → String → List Nat) (pl : JWTPayload)
    (secret : String) : List Char :=
  headerB64chars ++ '.' :: (payloadB64chars pl ++ '.' :: sigChars hmac pl secret)

/-! ## Theorems -/

/-! ### Helper lemmas about the storage operations -/

/-- `deleteProjectList` fails exactly when no project carries the id. -/
theorem deleteProjectList_eq_none {ps : List Project} {id : String} :
    MemoryStorage.deleteProjectList ps id = none ↔ ∀ p ∈ ps, p.id ≠ id := by
  induction ps with
  | nil => simp [MemoryStorage.deleteProjectList]
  | cons p rest ih =>
    by_cases h : p.id = id
    · simp [MemoryStorage.deleteProjectList, h]
    · simp [MemoryStorage.deleteProjectList, h, ih]

/-- The surviving endpoint list after a cascade delete. -/
theorem deleteProject_endpoints_of_some {d : StorageData} {id : String}
    {ps : List Project} (h : MemoryStorage.deleteProjectList d.projects id = some ps) :
    MemoryStorage.deleteProject d id =
      (true, { d with projects := ps,
                      endpoints := d.endpoints.filter (fun e => e.projectId ≠ id) }) := by
  simp [MemoryStorage.deleteProject, MemoryStorage.deleteEndpointsByProject, h]

/-! ### C1: longest-prefix project resolution -/

/-- C1: the claim states that resolution prefers the Project with the
longest matching basePath, so that with basePaths `/api` and `/api/v1` a
request to `/api/v1/users` resolves against `/api/v1`.  The code instead
takes the first stored Project whose basePath is a prefix: with the
projects stored in the order `/api`, `/api/v1` and the matching endpoint
owned by the `/api/v1` project, resolution inspects the `/api` project
and returns nothing, while merely reversing the storage order returns
the endpoint. -/
theorem c1_first_prefix_not_longest :
    MemoryStorage.getEndpointByPath
      ⟨[⟨"p-api", "API", none, "/api", 0, 0⟩, ⟨"p-v1", "API v1", none, "/api/v1", 0, 0⟩],
       [⟨"e-users", "p-v1", "/users", "GET", ⟨200, [], "ok", none⟩, true, 0, 0⟩],
       DEFAULT_SETTINGS⟩ "/api/v1/users" "" "GET" = none ∧
    MemoryStorage.getEndpointByPath
      ⟨[⟨"p-v1", "API v1", none, "/api/v1", 0, 0⟩, ⟨"p-api", "API", none, "/api", 0, 0⟩],
       [⟨"e-users", "p-v1", "/users", "GET", ⟨200, [], "ok", none⟩, true, 0, 0⟩],
       DEFAULT_SETTINGS⟩ "/api/v1/users" "" "GET" =
      some ⟨"e-users", "p-v1", "/users", "GET", ⟨200, [], "ok", none⟩, true, 0, 0⟩ := by
  exact ⟨by decide, by decide⟩

/-! ### C2: relative-path computation -/

/-- C2: the claim states that resolution removes the chosen Project's
basePath from the request path and treats an empty remainder as `/`.
`MemoryStorage.getEndpointByPath` does (`... || '/'`), but
`KVStorage.getEndpointByPath` computes
`basePath.substring(p.basePath.length) + path` with no fallback, so a
request equal to the basePath itself (callers always pass `path = ''`)
looks up the empty relative path and misses the stored `/` endpoint that
the memory implementation returns. -/
theorem c2_kv_empty_remainder_mismatch :
    KVStorage.getEndpointByPath
      [⟨"p1", "API", none, "/api", 0, 0⟩]
      [⟨"e-root", "p1", "/", "GET", ⟨200, [], "ok", none⟩, true, 0, 0⟩]
      "/api" "" "GET" = none ∧
    MemoryStorage.getEndpointByPath
      ⟨[⟨"p1", "API", none, "/api", 0, 0⟩],
       [⟨"e-root", "p1", "/", "GET", ⟨200, [], "ok", none⟩, true, 0, 0⟩],
       DEFAULT_SETTINGS⟩ "/api" "" "GET" =
      some ⟨"e-root", "p1", "/", "GET", ⟨200, [], "ok", none⟩, true, 0, 0⟩ := by
  exact ⟨by decide, by decide⟩

/-! ### C5: dynamic CORS rejection -/

/-- C5: in dynamic mode, a request whose Origin is neither covered by a
listed `*` nor literally listed in the Settings read for that request is
answered 403 (`Origin not allowed`) by the middleware, and the pipeline
result is the same for every downstream handler, so the mock responder
is never invoked. -/
theorem c5_dynamic_cors_rejects_uncovered_origin
    (settings : GlobalSettings) (origin method : String)
    (hstar : settings.corsOrigins.contains "*" = false)
    (horig : settings.corsOrigins.contains origin = false) :
    corsMiddleware settings (some origin) method = .forbidden ∧
    ∀ handler, runDynamic settings (some origin) method handler =
      ⟨403, [], some "Origin not allowed"⟩ := by
  have heq : effOrigin (some origin) = if origin = "" then "*" else origin := rfl
  have heff : settings.corsOrigins.contains (effOrigin (some origin)) = false := by
    rw [heq]
    by_cases h0 : origin = ""
    · rw [if_pos h0]; exact hstar
    · rw [if_neg h0]; exact horig
  have hall : (settings.corsOrigins.contains "*" ||
      settings.corsOrigins.contains (effOrigin (some origin))) = false := by
    rw [hstar, heff]; rfl
  have hmid : corsMiddleware settings (some origin) method = .forbidden := by
    simp only [corsMiddleware]
    rw [hall]
    rfl
  exact ⟨hmid, fun handler => by simp [runDynamic, hmid]⟩

/-- Witness for C5 at a concrete configuration. -/
theorem c5_dynamic_cors_rejects_uncovered_origin_witness :
    corsMiddleware ⟨["https://a.com"], [], [], [], true⟩ (some "https://b.com") "GET" =
      .forbidden ∧
    runDynamic ⟨["https://a.com"], [], [], [], true⟩ (some "https://b.com") "GET"
      (fun _ => ⟨200, [], some "mock"⟩) = ⟨403, [], some "Origin not allowed"⟩ := by
  have h := c5_dynamic_cors_rejects_uncovered_origin
    ⟨["https://a.com"], [], [], [], true⟩ "https://b.com" "GET" (by decide) (by decide)
  exact ⟨h.1, h.2 _⟩

/-! ### C6: OPTIONS preflight short-circuit -/

/-- C6: in both modes an OPTIONS request that is not origin-rejected is
answered with an empty 204 after the CORS headers are computed; the
pipeline result does not mention the downstream handler, so endpoint
resolution and the management logic are never reached — in particular
the pipeline around the mock responder yields the same 204 for every
stored state, so a stored OPTIONS endpoint is never served. -/
theorem c6_options_short_circuit
    (settings : GlobalSettings) (originHeader : Option String)
    (hallow : settings.corsOrigins.contains "*" = true ∨
      settings.corsOrigins.contains (effOrigin originHeader) = true) :
    (∀ handler, runDynamic settings originHeader "OPTIONS" handler =
       ⟨204, dynCorsHeaders settings (effOrigin originHeader), none⟩) ∧
    (∀ d path, runDynamic settings originHeader "OPTIONS"
       (mockHandler d settings path "OPTIONS") =
       ⟨204, dynCorsHeaders settings (effOrigin originHeader), none⟩) ∧
    (∀ origins methods headerNames maxAge originH handler,
       runStatic origins methods headerNames maxAge originH "OPTIONS" handler =
       ⟨204, staticCorsHeaders origins methods headerNames maxAge (effOrigin originH), none⟩) := by
  have hall : (settings.corsOrigins.contains "*" ||
      settings.corsOrigins.contains (effOrigin originHeader)) = true := by
    rcases hallow with h | h
    · rw [h]; rfl
    · rw [h, Bool.or_true]
  have hmid : corsMiddleware settings originHeader "OPTIONS" =
      .preflight (dynCorsHeaders settings (effOrigin originHeader)) := by
    simp only [corsMiddleware]
    rw [hall]
    rfl
  refine ⟨fun handler => by simp [runDynamic, hmid],
          fun d path => by simp [runDynamic, hmid],
          fun origins methods headerNames maxAge originH handler => ?_⟩
  simp [runStatic, staticCorsMiddleware]

/-- Witness for C6 at a concrete configuration. -/
theorem c6_options_short_circuit_witness :
    runDynamic DEFAULT_SETTINGS (some "https://a.com") "OPTIONS"
      (fun _ => ⟨200, [], some "mock"⟩) =
      ⟨204, dynCorsHeaders DEFAULT_SETTINGS "https://a.com", none⟩ ∧
    runStatic ["*"] ["GET", "POST", "PUT", "DELETE", "OPTIONS"]
      ["Content-Type", "Authorization"] 86400 none "OPTIONS"
      (fun _ => ⟨200, [], some "admin"⟩) =
      ⟨204, staticCorsHeaders ["*"] ["GET", "POST", "PUT", "DELETE", "OPTIONS"]
        ["Content-Type", "Authorization"] 86400 "*", none⟩ := by
  have h := c6_options_short_circuit DEFAULT_SETTINGS (some "https://a.com")
    (Or.inl (by decide))
  exact ⟨h.1 _, h.2.2 _ _ _ _ _ _⟩

/-! ### C7: static CORS origin decision -/

/-- C7 counterexample: the claim states that a literally listed Origin
takes precedence over a listed `*` (allowed origin = the request Origin,
with the credentials header).  The code checks `*` first: with
`origins = ["*", "https://a.com"]` and `Origin: https://a.com` the
emitted allowed origin is `*` and no credentials header is emitted. -/
theorem c7_star_precedence_counterexample :
    staticAllowedOrigin ["*", "https://a.com"] "https://a.com" = some "*" ∧
    staticAllowedOrigin ["*", "https://a.com"] "https://a.com" ≠ some "https://a.com" ∧
    ("Access-Control-Allow-Origin", "https://a.com") ∉
      staticCorsHeaders ["*", "https://a.com"] ["GET"] ["Content-Type"] 86400 "https://a.com" ∧
    ("Access-Control-Allow-Credentials", "true") ∉
      staticCorsHeaders ["*", "https://a.com"] ["GET"] ["Content-Type"] 86400 "https://a.com" := by
  refine ⟨by decide, by decide, ?_, ?_⟩ <;> decide

/-- C7 (amended): in static mode the allowed origin is `*` whenever `*`
is listed; otherwise it is the request Origin when literally listed
(and then `Access-Control-Allow-Credentials: true` is also emitted);
otherwise no CORS headers are emitted; and in every case a non-OPTIONS
request proceeds to the handler — static mode never responds 403 on
origin grounds. -/
theorem c7_static_cors_decision
    (origins methods headerNames : List String) (maxAge : Nat)
    (originHeader : Option String) (method : String) :
    (origins.contains "*" = true →
       staticAllowedOrigin origins (effOrigin originHeader) = some "*") ∧
    (origins.contains "*" = false →
       origins.contains (effOrigin originHeader) = true →
       staticAllowedOrigin origins (effOrigin originHeader) =
         some (effOrigin originHeader) ∧
       ("Access-Control-Allow-Credentials", "true") ∈
         staticCorsHeaders origins methods headerNames maxAge (effOrigin originHeader)) ∧
    (origins.contains "*" = false →
       origins.contains (effOrigin originHeader) = false →
       staticCorsHeaders origins methods headerNames maxAge (effOrigin originHeader) = []) ∧
    (method ≠ "OPTIONS" → ∀ handler,
       runStatic origins methods headerNames maxAge originHeader method handler =
         handler (staticCorsHeaders origins methods headerNames maxAge
           (effOrigin originHeader))) := by
  refine ⟨fun hstar => ?_, fun hstar horig => ?_, fun hstar horig => ?_,
          fun hm handler => ?_⟩
  · simp only [staticAllowedOrigin]
    rw [hstar]
    rfl
  · have hne : effOrigin originHeader ≠ "*" := by
      intro he
      rw [he] at horig
      rw [horig] at hstar
      exact absurd hstar (by decide)
    have hdec : staticAllowedOrigin origins (effOrigin originHeader) =
        some (effOrigin originHeader) := by
      simp only [staticAllowedOrigin]
      rw [hstar, horig]
      rfl
    refine ⟨hdec, ?_⟩
    simp only [staticCorsHeaders]
    rw [hdec]
    simp [hne]
  · simp only [staticCorsHeaders, staticAllowedOrigin]
    rw [hstar, horig]
    rfl
  · simp only [runStatic, staticCorsMiddleware]
    rw [if_neg hm]

/-- Witness for C7 at concrete configurations exercising each branch. -/
theorem c7_static_cors_decision_witness :
    staticAllowedOrigin ["*"] "https://a.com" = some "*" ∧
    (("Access-Control-Allow-Credentials", "true") ∈
      staticCorsHeaders ["https://a.com"] ["GET"] ["Content-Type"] 86400 "https://a.com") ∧
    staticCorsHeaders ["https://a.com"] ["GET"] ["Content-Type"] 86400 "https://b.com" = [] ∧
    runStatic ["https://a.com"] ["GET"] ["Content-Type"] 86400 (some "https://b.com") "GET"
      (fun hs => ⟨200, hs, some "admin"⟩) =
      ⟨200, staticCorsHeaders ["https://a.com"] ["GET"] ["Content-Type"] 86400
        "https://b.com", some "admin"⟩ := by
  refine ⟨(c7_static_cors_decision ["*"] ["GET"] ["Content-Type"] 86400
      (some "https://a.com") "GET").1 (by decide),
    ((c7_static_cors_decision ["https://a.com"] ["GET"] ["Content-Type"] 86400
      (some "https://a.com") "GET").2.1 (by decide) (by decide)).2,
    (c7_static_cors_decision ["https://a.com"] ["GET"] ["Content-Type"] 86400
      (some "https://b.com") "GET").2.2.1 (by decide) (by decide),
    (c7_static_cors_decision ["https://a.com"] ["GET"] ["Content-Type"] 86400
      (some "https://b.com") "GET").2.2.2 (by decide) _⟩

/-! ### C8: cascade delete -/

/-- C8 counterexample: the claim quantifies over every stored state and
every Project id present in it.  For a stored project whose id is the
empty string, `deleteProject("")` returns true and cascades, but the JS
truthiness check in `getEndpoints` makes `getEndpoints("")` return the
whole endpoints list rather than filtering by the deleted id, so the
claimed post-condition `getEndpoints(id) == []` fails when any other
project still owns endpoints. -/
theorem c8_empty_id_counterexample :
    (MemoryStorage.deleteProject
      ⟨[⟨"", "anon", none, "/a", 0, 0⟩, ⟨"q", "other", none, "/q", 0, 0⟩],
       [⟨"e-a", "", "/x", "GET", ⟨200, [], "ok", none⟩, true, 0, 0⟩,
        ⟨"e-q", "q", "/y", "GET", ⟨200, [], "ok", none⟩, true, 0, 0⟩],
       DEFAULT_SETTINGS⟩ "").1 = true ∧
    (∀ e ∈ (MemoryStorage.deleteProject
      ⟨[⟨"", "anon", none, "/a", 0, 0⟩, ⟨"q", "other", none, "/q", 0, 0⟩],
       [⟨"e-a", "", "/x", "GET", ⟨200, [], "ok", none⟩, true, 0, 0⟩,
        ⟨"e-q", "q", "/y", "GET", ⟨200, [], "ok", none⟩, true, 0, 0⟩],
       DEFAULT_SETTINGS⟩ "").2.endpoints, e.projectId ≠ "") ∧
    MemoryStorage.getEndpoints (MemoryStorage.deleteProject
      ⟨[⟨"", "anon", none, "/a", 0, 0⟩, ⟨"q", "other", none, "/q", 0, 0⟩],
       [⟨"e-a", "", "/x", "GET", ⟨200, [], "ok", none⟩, true, 0, 0⟩,
        ⟨"e-q", "q", "/y", "GET", ⟨200, [], "ok", none⟩, true, 0, 0⟩],
       DEFAULT_SETTINGS⟩ "").2 (some "") ≠ [] := by
  refine ⟨by decide, ?_, by decide⟩
  decide

/-- C8 (amended): for every stored state and every nonempty Project id
present in it, `deleteProject(id)` returns true, afterwards
`getEndpoints(id)` returns the empty list, and the surviving endpoints
are exactly those whose projectId differs from the id (so no endpoint of
another project is removed); for an id not present, `deleteProject`
returns false and the state is unchanged. -/
theorem c8_delete_project_cascade
    (d : StorageData) (id : String) (hid : id ≠ "") :
    ((∃ p ∈ d.projects, p.id = id) →
       (MemoryStorage.deleteProject d id).1 = true ∧
       MemoryStorage.getEndpoints (MemoryStorage.deleteProject d id).2 (some id) = [] ∧
       (MemoryStorage.deleteProject d id).2.endpoints =
         d.endpoints.filter (fun e => e.projectId ≠ id)) ∧
    ((∀ p ∈ d.projects, p.id ≠ id) →
       MemoryStorage.deleteProject d id = (false, d)) := by
  constructor
  · rintro ⟨p, hp, hpid⟩
    obtain ⟨ps, hps⟩ : ∃ ps, MemoryStorage.deleteProjectList d.projects id = some ps := by
      rcases h : MemoryStorage.deleteProjectList d.projects id with _ | ps
      · exact absurd hpid (deleteProjectList_eq_none.mp h p hp)
      · exact ⟨ps, rfl⟩
    have hdel := deleteProject_endpoints_of_some hps
    refine ⟨by rw [hdel], ?_, by rw [hdel]⟩
    rw [hdel]
    simp only [MemoryStorage.getEndpoints]
    rw [if_neg hid]
    rw [List.filter_filter]
    apply List.filter_eq_nil_iff.mpr
    intro e _
    simp only [Bool.and_comm, Bool.and_eq_true, decide_eq_true_eq, bne_iff_ne]
    rintro ⟨rfl, hne⟩
    exact hne rfl
  · intro hnone
    have h : MemoryStorage.deleteProjectList d.projects id = none :=
      deleteProjectList_eq_none.mpr hnone
    simp [MemoryStorage.deleteProject, h]

/-- Witness for C8 at a concrete state. -/
theorem c8_delete_project_cascade_witness :
    (MemoryStorage.deleteProject
      ⟨[⟨"p1", "A", none, "/a", 0, 0⟩, ⟨"p2", "B", none, "/b", 0, 0⟩],
       [⟨"e1", "p1", "/x", "GET", ⟨200, [], "ok", none⟩, true, 0, 0⟩,
        ⟨"e2", "p2", "/y", "GET", ⟨200, [], "ok", none⟩, true, 0, 0⟩],
       DEFAULT_SETTINGS⟩ "p1").1 = true ∧
    MemoryStorage.getEndpoints (MemoryStorage.deleteProject
      ⟨[⟨"p1", "A", none, "/a", 0, 0⟩, ⟨"p2", "B", none, "/b", 0, 0⟩],
       [⟨"e1", "p1", "/x", "GET", ⟨200, [], "ok", none⟩, true, 0, 0⟩,
        ⟨"e2", "p2", "/y", "GET", ⟨200, [], "ok", none⟩, true, 0, 0⟩],
       DEFAULT_SETTINGS⟩ "p1").2 (some "p1") = [] ∧
    (MemoryStorage.deleteProject
      ⟨[⟨"p1", "A", none, "/a", 0, 0⟩, ⟨"p2", "B", none, "/b", 0, 0⟩],
       [⟨"e1", "p1", "/x", "GET", ⟨200, [], "ok", none⟩, true, 0, 0⟩,
        ⟨"e2", "p2", "/y", "GET", ⟨200, [], "ok", none⟩, true, 0, 0⟩],
       DEFAULT_SETTINGS⟩ "p1").2.endpoints =
      [⟨"e2", "p2", "/y", "GET", ⟨200, [], "ok", none⟩, true, 0, 0⟩] ∧
    MemoryStorage.deleteProject
      ⟨[⟨"p1", "A", none, "/a", 0, 0⟩], [], DEFAULT_SETTINGS⟩ "zz" =
      (false, ⟨[⟨"p1", "A", none, "/a", 0, 0⟩], [], DEFAULT_SETTINGS⟩) := by
  have h1 := (c8_delete_project_cascade
    ⟨[⟨"p1", "A", none, "/a", 0, 0⟩, ⟨"p2", "B", none, "/b", 0, 0⟩],
     [⟨"e1", "p1", "/x", "GET", ⟨200, [], "ok", none⟩, true, 0, 0⟩,
      ⟨"e2", "p2", "/y", "GET", ⟨200, [], "ok", none⟩, true, 0, 0⟩],
     DEFAULT_SETTINGS⟩ "p1" (by decide)).1
    ⟨⟨"p1", "A", none, "/a", 0, 0⟩, by decide, rfl⟩
  have h2 := (c8_delete_project_cascade
    ⟨[⟨"p1", "A", none, "/a", 0, 0⟩], [], DEFAULT_SETTINGS⟩ "zz" (by decide)).2
    (by decide)
  refine ⟨h1.1, h1.2.1, ?_, h2⟩
  rw [h1.2.2]
  decide


/-! ### C9: partial-update merge semantics -/

/-- C9 counterexample: the claim states that `createdAt` is never
client-settable.  In `updateProject` the spread `{...project, ...data,
id, updatedAt: now}` re-forces only `id` and `updatedAt`, so a patch
carrying `createdAt: 123` overrides the stored `createdAt` of 50. -/
theorem c9_createdAt_counterexample :
    (MemoryStorage.updateProject
      ⟨[⟨"p1", "n", none, "/b", 50, 60⟩], [], DEFAULT_SETTINGS⟩ "p1"
      ⟨none, none, none, none, some 123, none⟩ 99).1 =
      some ⟨"p1", "n", none, "/b", 123, 99⟩ ∧
    (∀ q, (MemoryStorage.updateProject
      ⟨[⟨"p1", "n", none, "/b", 50, 60⟩], [], DEFAULT_SETTINGS⟩ "p1"
      ⟨none, none, none, none, some 123, none⟩ 99).1 = some q →
      q.createdAt ≠ 50) := by
  exact ⟨by decide, by decide⟩

/-- C9 (amended): an update shallow-merges the supplied fields over the
existing record and stamps `updatedAt` with the current time; the stored
`id` is preserved and a client-supplied `updatedAt` is ignored (both are
re-forced after the spread), but a client-supplied `createdAt` does
override the stored one; updating with the empty patch changes nothing
but `updatedAt`, and updating an absent id returns null and leaves the
list unchanged. -/
theorem c9_update_merge_semantics
    (ps : List Project) (id : String) (now : Nat) :
    (∀ p patch,
       (mergeProject p patch now).id = p.id ∧
       (mergeProject p patch now).updatedAt = now ∧
       (∀ v, patch.name = some v → (mergeProject p patch now).name = v) ∧
       (patch.name = none → (mergeProject p patch now).name = p.name) ∧
       (∀ v, patch.basePath = some v → (mergeProject p patch now).basePath = v) ∧
       (patch.basePath = none → (mergeProject p patch now).basePath = p.basePath) ∧
       (patch.description = none →
         (mergeProject p patch now).description = p.description) ∧
       (patch.createdAt = none → (mergeProject p patch now).createdAt = p.createdAt)) ∧
    (∀ p, mergeProject p emptyProjectPatch now = { p with updatedAt := now }) ∧
    (∀ patch p',
       (MemoryStorage.updateProjectList ps id patch now).1 = some p' →
       ∃ p ∈ ps, p.id = id ∧ p' = mergeProject p patch now) ∧
    (∀ patch,
       (MemoryStorage.updateProjectList ps id patch now).1 = none →
       (MemoryStorage.updateProjectList ps id patch now).2 = ps) ∧
    (∀ e epatch,
       (mergeEndpoint e epatch now).id = e.id ∧
       (mergeEndpoint e epatch now).updatedAt = now) ∧
    (∀ e, mergeEndpoint e emptyEndpointPatch now = { e with updatedAt := now }) := by
  refine ⟨?_, ?_, ?_, ?_, ?_, ?_⟩
  · intro p patch
    refine ⟨rfl, rfl, ?_, ?_, ?_, ?_, ?_, ?_⟩ <;>
      first
        | (intro v h; simp [mergeProject, h])
        | (intro h; simp [mergeProject, h])
  · intro p
    simp [mergeProject, emptyProjectPatch]
  · intro patch p'
    induction ps with
    | nil => intro h; exact absurd h (by simp [MemoryStorage.updateProjectList])
    | cons p rest ih =>
      by_cases hp : p.id = id
      · intro h
        simp only [MemoryStorage.updateProjectList, if_pos hp] at h
        exact ⟨p, List.mem_cons_self p rest, hp, (Option.some_inj.mp h).symm⟩
      · intro h
        simp only [MemoryStorage.updateProjectList, if_neg hp] at h
        obtain ⟨q, hq, hqid, hq'⟩ := ih h
        exact ⟨q, List.mem_cons_of_mem p hq, hqid, hq'⟩
  · intro patch
    induction ps with
    | nil => intro _; rfl
    | cons p rest ih =>
      by_cases hp : p.id = id
      · intro h
        simp [MemoryStorage.updateProjectList, if_pos hp] at h
      · intro h
        simp only [MemoryStorage.updateProjectList, if_neg hp] at h ⊢
        rw [ih h]
  · intro e epatch
    exact ⟨rfl, rfl⟩
  · intro e
    simp [mergeEndpoint, emptyEndpointPatch]

/-- Witness for C9 at a concrete record and patches. -/
theorem c9_update_merge_semantics_witness :
    mergeProject ⟨"p1", "n", none, "/b", 50, 60⟩
      ⟨some "zz", some "m", none, none, none, some 7⟩ 99 =
      ⟨"p1", "m", none, "/b", 50, 99⟩ ∧
    mergeProject ⟨"p1", "n", none, "/b", 50, 60⟩ emptyProjectPatch 99 =
      ⟨"p1", "n", none, "/b", 50, 99⟩ ∧
    (MemoryStorage.updateProjectList [⟨"p1", "n", none, "/b", 50, 60⟩] "zz"
      emptyProjectPatch 99).2 = [⟨"p1", "n", none, "/b", 50, 60⟩] := by
  have h := c9_update_merge_semantics [⟨"p1", "n", none, "/b", 50, 60⟩] "zz" 99
  refine ⟨?_, h.2.1 ⟨"p1", "n", none, "/b", 50, 60⟩, h.2.2.2.1 emptyProjectPatch (by decide)⟩
  have h1 := h.1 ⟨"p1", "n", none, "/b", 50, 60⟩ ⟨some "zz", some "m", none, none, none, some 7⟩
  decide

/-! ### C10: requests without an Origin header -/

/-- C10: the dynamic middleware substitutes the literal `*` for a
missing Origin header, so when `*` is not among `corsOrigins` every
Origin-less request is rejected with 403 before resolution (for every
handler), and when `*` is listed such a request proceeds with
`Access-Control-Allow-Origin: *` and without
`Access-Control-Allow-Credentials`. -/
theorem c10_originless_requests
    (settings : GlobalSettings) (method : String) :
    (settings.corsOrigins.contains "*" = false →
       corsMiddleware settings none method = .forbidden ∧
       ∀ handler, runDynamic settings none method handler =
         ⟨403, [], some "Origin not allowed"⟩) ∧
    (settings.corsOrigins.contains "*" = true →
       ("Access-Control-Allow-Origin", "*") ∈ dynCorsHeaders settings "*" ∧
       (∀ v, ("Access-Control-Allow-Credentials", v) ∉ dynCorsHeaders settings "*") ∧
       (method ≠ "OPTIONS" → ∀ handler,
          runDynamic settings none method handler =
            handler (dynCorsHeaders settings "*"))) := by
  constructor
  · intro hstar
    have heff : effOrigin none = "*" := rfl
    have hall : (settings.corsOrigins.contains "*" ||
        settings.corsOrigins.contains (effOrigin none)) = false := by
      rw [heff, hstar]; rfl
    have hmid : corsMiddleware settings none method = .forbidden := by
      simp only [corsMiddleware]
      rw [hall]
      rfl
    exact ⟨hmid, fun handler => by simp [runDynamic, hmid]⟩
  · intro hstar
    have hao : dynAllowedOrigin settings "*" = "*" := by
      simp only [dynAllowedOrigin]
      rw [hstar]
      rfl
    have hhd : dynCorsHeaders settings "*" =
        [("Access-Control-Allow-Origin", "*"),
         ("Access-Control-Allow-Methods", String.intercalate ", " settings.corsMethods),
         ("Access-Control-Allow-Headers", String.intercalate ", " settings.corsHeaders),
         ("Access-Control-Max-Age", "86400")] := by
      simp only [dynCorsHeaders]
      rw [hao]
      simp
    refine ⟨by rw [hhd]; simp, ?_, ?_⟩
    · intro v hv
      rw [hhd] at hv
      simp only [List.mem_cons, List.not_mem_nil, or_false, Prod.mk.injEq] at hv
      rcases hv with ⟨h, _⟩ | ⟨h, _⟩ | ⟨h, _⟩ | ⟨h, _⟩ <;> exact absurd h (by decide)
    · intro hm handler
      have hall : (settings.corsOrigins.contains "*" ||
          settings.corsOrigins.contains (effOrigin none)) = true := by
        rw [hstar]; rfl
      have hmid : corsMiddleware settings none method =
          .proceed (dynCorsHeaders settings "*") := by
        simp only [corsMiddleware]
        rw [hall]
        simp only [Bool.not_true, Bool.false_eq_true, if_false]
        rw [if_neg hm]
        rfl
      simp [runDynamic, hmid]

/-- Witness for C10 at concrete settings. -/
theorem c10_originless_requests_witness :
    runDynamic ⟨["https://a.com"], [], [], [], true⟩ none "GET"
      (fun _ => ⟨200, [], some "mock"⟩) = ⟨403, [], some "Origin not allowed"⟩ ∧
    runDynamic DEFAULT_SETTINGS none "GET" (fun hs => ⟨200, hs, some "mock"⟩) =
      ⟨200, dynCorsHeaders DEFAULT_SETTINGS "*", some "mock"⟩ ∧
    ("Access-Control-Allow-Origin", "*") ∈ dynCorsHeaders DEFAULT_SETTINGS "*" := by
  have h1 := (c10_originless_requests ⟨["https://a.com"], [], [], [], true⟩ "GET").1
    (by decide)
  have h2 := (c10_originless_requests DEFAULT_SETTINGS "GET").2 (by decide)
  exact ⟨h1.2 _, h2.2.2 (by decide) _, h2.1⟩

/-! ### C4: verifyToken totality and failure characterization -/

/-- C4: `verifyToken` is a total function of its inputs (every throwing
path of the source is a caught exception modelled by `none`), and it
returns `none` whenever the token does not split into exactly three
dot-separated parts, or the recomputed signature over the first two
parts differs from the third, or the payload fails to base64-decode or
to parse, or the payload's `exp` is strictly below the current time; it
returns the parsed payload exactly when none of these hold. -/
theorem c4_verify_totality (hmac : String → String → List Nat)
    (token secret : String) (now : Nat) :
    ((splitOnDot token.data).length ≠ 3 →
       verifyToken hmac token secret now = none) ∧
    (∀ h p s, splitOnDot token.data = [h, p, s] →
       (String.mk s ≠ signStr hmac (String.mk h ++ "." ++ String.mk p) secret →
          verifyToken hmac token secret now = none) ∧
       (String.mk s = signStr hmac (String.mk h ++ "." ++ String.mk p) secret →
          (base64UrlDecode p = none → verifyToken hmac token secret now = none) ∧
          (∀ bs, base64UrlDecode p = some bs →
             (jsonToPayload (bytesToString bs) = none →
                verifyToken hmac token secret now = none) ∧
             (∀ pl, jsonToPayload (bytesToString bs) = some pl →
                (pl.exp < now → verifyToken hmac token secret now = none) ∧
                (¬ pl.exp < now →
                   verifyToken hmac token secret now = some pl))))) := by
  constructor
  · intro hlen
    unfold verifyToken
    split
    · rename_i h p s heq
      rw [heq] at hlen
      exact absurd rfl hlen
    · rfl
  · intro h p s hsplit
    have hv : verifyToken hmac token secret now =
        (if String.mk s ≠ signStr hmac (String.mk h ++ "." ++ String.mk p) secret
         then none
         else
           match base64UrlDecode p with
           | none => none
           | some bs =>
             match jsonToPayload (bytesToString bs) with
             | none => none
             | some payload =>
               if payload.exp < now then none else some payload) := by
      unfold verifyToken
      rw [hsplit]
    constructor
    · intro hsig
      rw [hv, if_pos hsig]
    · intro hsig
      have hv2 : verifyToken hmac token secret now =
          (match base64UrlDecode p with
           | none => none
           | some bs =>
             match jsonToPayload (bytesToString bs) with
             | none => none
             | some payload =>
               if payload.exp < now then none else some payload) := by
        rw [hv, if_neg (by simpa using hsig)]
      refine ⟨fun hdec => by rw [hv2, hdec], fun bs hdec => ⟨fun hjson => ?_, fun pl hjson => ⟨fun hexp => ?_, fun hexp => ?_⟩⟩⟩
      · rw [hv2, hdec]
        simp only [hjson]
      · rw [hv2, hdec]
        simp only [hjson]
        rw [if_pos hexp]
      · rw [hv2, hdec]
        simp only [hjson]
        rw [if_neg hexp]

/-- Witness for C4: a token with the wrong number of parts, and a token
whose third part is not the recomputed signature, both verify to `none`. -/
theorem c4_verify_totality_witness :
    verifyToken hmacW "ab" "k" 0 = none ∧
    verifyToken hmacW "a.b.c" "k" 0 = none := by
  refine ⟨(c4_verify_totality hmacW "ab" "k" 0).1 (by decide), ?_⟩
  exact (((c4_verify_totality hmacW "a.b.c" "k" 0).2 ['a'] ['b'] ['c']
    (by decide)).1 (by decide))

/-! ### Base64 lemmas -/

/-- Setting an index to the element already there changes nothing. -/
theorem list_set_get_self {α : Type} (l : List α) (i : Nat) (h : i < l.length) :
    l.set i l[i] = l := by
  induction l generalizing i with
  | nil => simp at h
  | cons a rest ih =>
    cases i with
    | zero => rfl
    | succ j =>
      have hj : j < rest.length := by simpa using h
      simp only [List.set]
      rw [List.getElem_cons_succ, ih j hj]

/-- An out-of-range or no-op `set` leaves the list unchanged, so a
changed list pins down the index and the new element. -/
theorem set_ne_facts {α : Type} {l : List α} {i : Nat} {c : α}
    (h : l.set i c ≠ l) : ∃ hi : i < l.length, c ≠ l[i] := by
  by_cases hi : i < l.length
  · refine ⟨hi, fun he => ?_⟩
    subst he
    exact h (list_set_get_self l i hi)
  · exact absurd (List.set_eq_of_length_le (Nat.le_of_not_lt hi)) h

/-- Base64 characters are never dots. -/
theorem b64Char_ne_dot (n : Nat) : b64Char n ≠ '.' := by
  unfold b64Char
  rw [List.getD_eq_getElem?_getD]
  cases h : b64Alphabet[n]? with
  | none => decide
  | some x =>
    have hx : x ∈ b64Alphabet := List.getElem?_mem h
    have : ∀ y ∈ b64Alphabet, y ≠ '.' := by decide
    simpa using this x hx

/-- Decoding a base64 character recovers any 6-bit value. -/
theorem b64Val_b64Char : ∀ n < 64, b64Val (b64Char n) = some n := by decide

/-- Base64-encoded byte lists contain no dot. -/
theorem base64UrlEncode_no_dot (bs : List Nat) : '.' ∉ base64UrlEncode bs := by
  induction bs using base64UrlEncode.induct with
  | case1 => simp [base64UrlEncode]
  | case2 b1 =>
    simp only [base64UrlEncode, List.mem_cons, List.not_mem_nil, or_false]
    rintro (h | h) <;> exact b64Char_ne_dot _ h.symm
  | case3 b1 b2 =>
    simp only [base64UrlEncode, List.mem_cons, List.not_mem_nil, or_false]
    rintro (h | h | h) <;> exact b64Char_ne_dot _ h.symm
  | case4 b1 b2 b3 rest ih =>
    simp only [base64UrlEncode, List.mem_cons]
    rintro (h | h | h | h | h)
    · exact b64Char_ne_dot _ h.symm
    · exact b64Char_ne_dot _ h.symm
    · exact b64Char_ne_dot _ h.symm
    · exact b64Char_ne_dot _ h.symm
    · exact ih h

/-- Decoding inverts encoding on byte lists. -/
theorem base64UrlDecode_encode (bs : List Nat) (h : ∀ b ∈ bs, b < 256) :
    base64UrlDecode (base64UrlEncode bs) = some bs := by
  induction bs using base64UrlEncode.induct with
  | case1 => rfl
  | case2 b1 =>
    have hb1 : b1 < 256 := h b1 (by simp)
    simp only [base64UrlEncode, base64UrlDecode]
    rw [b64Val_b64Char (b1 / 4) (by omega), b64Val_b64Char (b1 % 4 * 16) (by omega)]
    simp only [Option.some.injEq, List.cons.injEq, and_true]
    omega
  | case3 b1 b2 =>
    have hb1 : b1 < 256 := h b1 (by simp)
    have hb2 : b2 < 256 := h b2 (by simp)
    simp only [base64UrlEncode, base64UrlDecode]
    rw [b64Val_b64Char (b1 / 4) (by omega),
        b64Val_b64Char (b1 % 4 * 16 + b2 / 16) (by omega),
        b64Val_b64Char (b2 % 16 * 4) (by omega)]
    simp only [Option.some.injEq, List.cons.injEq, and_true]
    constructor <;> omega
  | case4 b1 b2 b3 rest ih =>
    have hb1 : b1 < 256 := h b1 (by simp)
    have hb2 : b2 < 256 := h b2 (by simp)
    have hb3 : b3 < 256 := h b3 (by simp)
    have hrest : ∀ b ∈ rest, b < 256 := fun b hb => h b (by simp [hb])
    simp only [base64UrlEncode, base64UrlDecode]
    rw [b64Val_b64Char (b1 / 4) (by omega),
        b64Val_b64Char (b1 % 4 * 16 + b2 / 16) (by omega),
        b64Val_b64Char (b2 % 16 * 4 + b3 / 64) (by omega),
        b64Val_b64Char (b3 % 64) (by omega), ih hrest]
    simp only [Option.some.injEq, List.cons.injEq]
    refine ⟨by omega, by omega, by omega, trivial⟩

/-- Encoding is injective on byte lists. -/
theorem base64UrlEncode_inj {bs bs' : List Nat} (h : ∀ b ∈ bs, b < 256)
    (h' : ∀ b ∈ bs', b < 256) (he : base64UrlEncode bs = base64UrlEncode bs') :
    bs = bs' := by
  have e1 := base64UrlDecode_encode bs h
  rw [he, base64UrlDecode_encode bs' h'] at e1
  exact (Option.some_inj.mp e1).symm

/-! ### splitOnDot lemmas -/

/-- Splitting a dot-free list yields that list as the only part. -/
theorem splitOnDot_no_dot {l : List Char} (h : '.' ∉ l) : splitOnDot l = [l] := by
  induction l with
  | nil => rfl
  | cons c rest ih =>
    have hc : c ≠ '.' := fun he => h (he ▸ List.mem_cons_self c rest)
    have hrest : '.' ∉ rest := fun hm => h (List.mem_cons_of_mem c hm)
    simp only [splitOnDot, if_neg hc, ih hrest]

/-- Splitting peels a dot-free part before a dot. -/
theorem splitOnDot_append {a : List Char} (r : List Char) (h : '.' ∉ a) :
    splitOnDot (a ++ '.' :: r) = a :: splitOnDot r := by
  induction a with
  | nil => simp [splitOnDot]
  | cons c a' ih =>
    have hc : c ≠ '.' := fun he => h (he ▸ List.mem_cons_self c a')
    have ha' : '.' ∉ a' := fun hm => h (List.mem_cons_of_mem c hm)
    simp only [List.cons_append, splitOnDot, if_neg hc, List.append_eq, ih ha']

/-! ### Character range lemmas -/

/-- Hexadecimal digit characters are ASCII. -/
theorem hexDigitChar_lt256 (n : Nat) : charCode (hexDigitChar n) < 256 := by
  unfold hexDigitChar
  split_ifs with h1 h2
  · have hv : (48 + n).isValidChar := by
      left
      omega
    have : charCode (Char.ofNat (48 + n)) = 48 + n := by
      unfold charCode
      rw [Char.toNat, Char.ofNat, dif_pos hv]
      rfl
    omega
  · have hv : (87 + n).isValidChar := by
      left
      omega
    have : charCode (Char.ofNat (87 + n)) = 87 + n := by
      unfold charCode
      rw [Char.toNat, Char.ofNat, dif_pos hv]
      rfl
    omega
  · decide

/-- Every character a JSON escape produces is ASCII when the escaped
character is Latin-1. -/
theorem escChar_lt256 {c : Char} (h : charCode c < 256) :
    ∀ x ∈ escChar c, charCode x < 256 := by
  intro x hx
  unfold escChar at hx
  have hd : ∀ n, charCode (hexDigitChar n) < 256 := hexDigitChar_lt256
  split_ifs at hx <;>
    (try simp only [List.mem_cons, List.not_mem_nil, or_false] at hx) <;>
    first
      | (rcases hx with rfl | rfl <;> decide)
      | (rcases hx with rfl | rfl | rfl | rfl | rfl | rfl <;>
          first | decide | exact hd _)
      | (rcases List.mem_singleton.mp hx with rfl; exact h)
      | (subst hx; exact h)

/-- The decimal digits of a number are digit characters. -/
theorem natDigits_are_digits (n : Nat) :
    ∀ c ∈ natDigits n, 48 ≤ charCode c ∧ charCode c ≤ 57 := by
  have hdig : ∀ m < 10, 48 ≤ charCode (hexDigitChar m) ∧
      charCode (hexDigitChar m) ≤ 57 := by decide
  induction n using natDigits.induct with
  | case1 n hn =>
    intro c hc
    rw [natDigits, dif_pos hn] at hc
    rcases List.mem_singleton.mp hc with rfl
    exact hdig n hn
  | case2 n hn ih =>
    intro c hc
    rw [natDigits, dif_neg hn] at hc
    rcases List.mem_append.mp hc with h1 | h2
    · exact ih c h1
    · rcases List.mem_singleton.mp h2 with rfl
      exact hdig (n % 10) (Nat.mod_lt n (by omega))

/-- Folding the digit step over the digits of `n` appends `n` to the
accumulator in base 10. -/
theorem digitsVal_foldl (n : Nat) : ∀ acc : Nat,
    List.foldl (fun acc c => acc * 10 + (charCode c - 48)) acc (natDigits n) =
      acc * 10 ^ (natDigits n).length + n := by
  have hdig : ∀ m < 10, charCode (hexDigitChar m) = 48 + m := by decide
  induction n using natDigits.induct with
  | case1 n hn =>
    intro acc
    rw [natDigits, dif_pos hn]
    simp only [List.foldl_cons, List.foldl_nil, List.length_singleton, pow_one]
    rw [hdig n hn]
    omega
  | case2 n hn ih =>
    intro acc
    rw [natDigits, dif_neg hn]
    rw [List.foldl_append, ih acc]
    simp only [List.foldl_cons, List.foldl_nil, List.length_append,
      List.length_singleton]
    rw [hdig (n % 10) (Nat.mod_lt n (by omega))]
    have h48 : 48 + n % 10 - 48 = n % 10 := by omega
    rw [h48, pow_succ]
    have hmod : n / 10 * 10 + n % 10 = n := by omega
    calc (acc * 10 ^ (natDigits (n / 10)).length + n / 10) * 10 + n % 10
        = acc * (10 ^ (natDigits (n / 10)).length * 10) + (n / 10 * 10 + n % 10) := by ring
      _ = acc * (10 ^ (natDigits (n / 10)).length * 10) + n := by rw [hmod]

/-- The numeric value of the rendered digits of `n` is `n`. -/
theorem digitsVal_natDigits (n : Nat) : digitsVal (natDigits n) = n := by
  unfold digitsVal
  rw [digitsVal_foldl n 0]
  simp

/-- The digit run of a rendered number followed by a non-digit separator
is taken whole. -/
theorem takeDigits_append (ds : List Char) (hds : ∀ c ∈ ds, 48 ≤ charCode c ∧ charCode c ≤ 57)
    (sep : Char) (hsep : ¬(48 ≤ charCode sep ∧ charCode sep ≤ 57)) (r : List Char) :
    takeDigits (ds ++ sep :: r) = (ds, sep :: r) := by
  induction ds with
  | nil =>
    simp only [List.nil_append, takeDigits, if_neg hsep]
  | cons c ds' ih =>
    have hc := hds c (List.mem_cons_self c ds')
    have hds' : ∀ x ∈ ds', 48 ≤ charCode x ∧ charCode x ≤ 57 :=
      fun x hx => hds x (List.mem_cons_of_mem c hx)
    simp only [List.cons_append, takeDigits, if_pos hc, List.append_eq, ih hds']

/-- Parsing the rendered digits of `n` before a non-digit separator
returns `n` and the remainder. -/
theorem parseNat_natDigits (n : Nat) (sep : Char)
    (hsep : ¬(48 ≤ charCode sep ∧ charCode sep ≤ 57)) (r : List Char) :
    parseNat (natDigits n ++ sep :: r) = some (n, sep :: r) := by
  have hne : natDigits n ≠ [] := by
    rw [natDigits]
    split
    · simp
    · simp
  unfold parseNat
  rw [takeDigits_append (natDigits n) (natDigits_are_digits n) sep hsep r]
  simp only [if_neg hne]
  rw [digitsVal_natDigits]

/-- Consuming an expected literal prefix succeeds. -/
theorem dropLit_append (pre l : List Char) : dropLit pre (pre ++ l) = some l := by
  induction pre with
  | nil => rfl
  | cons p ps ih => simp [dropLit, ih]

/-- Hexadecimal digit rendering and parsing are inverse below 16. -/
theorem hexVal_hexDigitChar : ∀ v < 16, hexVal (hexDigitChar v) = some v := by decide

/-- Parsing a JSON string body undoes the escaping, up to the closing
quote. -/
theorem parseStringBody_escape (l rest : List Char) :
    parseStringBody (escapeJson l ++ '"' :: rest) = some (l, rest) := by
  induction l with
  | nil =>
    rw [parseStringBody.eq_def]
    simp [escapeJson]
  | cons c cs ih =>
    have hexp : escapeJson (c :: cs) = escChar c ++ escapeJson cs := by
      simp [escapeJson]
    rw [hexp, List.append_assoc]
    unfold escChar
    split_ifs with h1 h2 h3 h4 h5 h6 h7 h8
    · subst h1
      rw [parseStringBody.eq_def]
      simp [ih]
    · subst h2
      rw [parseStringBody.eq_def]
      simp [ih]
    · have hc : c = Char.ofNat 8 := by rw [← h3]; exact (Char.ofNat_toNat c).symm
      rw [parseStringBody.eq_def]
      simp [ih, hc]
    · have hc : c = Char.ofNat 9 := by rw [← h4]; exact (Char.ofNat_toNat c).symm
      rw [parseStringBody.eq_def]
      simp [ih, hc]
    · have hc : c = Char.ofNat 10 := by rw [← h5]; exact (Char.ofNat_toNat c).symm
      rw [parseStringBody.eq_def]
      simp [ih, hc]
    · have hc : c = Char.ofNat 12 := by rw [← h6]; exact (Char.ofNat_toNat c).symm
      rw [parseStringBody.eq_def]
      simp [ih, hc]
    · have hc : c = Char.ofNat 13 := by rw [← h7]; exact (Char.ofNat_toNat c).symm
      rw [parseStringBody.eq_def]
      simp [ih, hc]
    · have hz : hexVal '0' = some 0 := by decide
      have hhi : hexVal (hexDigitChar (charCode c / 16)) = some (charCode c / 16) :=
        hexVal_hexDigitChar _ (by omega)
      have hlo : hexVal (hexDigitChar (charCode c % 16)) = some (charCode c % 16) :=
        hexVal_hexDigitChar _ (by omega)
      have hv : 0 * 4096 + 0 * 256 + charCode c / 16 * 16 + charCode c % 16 =
          charCode c := by omega
      rw [parseStringBody.eq_def]
      simp only [List.cons_append]
      simp [hz, hhi, hlo, hv, ih, Char.ofNat_toNat]
      have hv2 : charCode c / 16 * 16 + charCode c % 16 = charCode c := by omega
      rw [hv2]
      exact Char.ofNat_toNat c
    · rw [parseStringBody.eq_def]
      simp [h1, h2, h8, ih]

/-- Parsing the serialized payload returns the payload. -/
theorem jsonToPayload_payloadToJson (pl : JWTPayload) :
    jsonToPayload (payloadToJson pl) = some pl := by
  obtain ⟨sub, exp, iat⟩ := pl
  have hinput : (payloadToJson ⟨sub, exp, iat⟩).data =
      "\x7b\"sub\":\"".data ++ (escapeJson sub.data ++ '"' ::
        (",\"iat\":".data ++ (natDigits iat ++ ',' ::
          ("\"exp\":".data ++ (natDigits exp ++ Char.ofNat 125 :: []))))) := by
    show payloadJson ⟨sub, exp, iat⟩ = _
    unfold payloadJson
    simp only [List.append_assoc, List.cons_append]
  have hpn1 := parseNat_natDigits iat ',' (by decide)
  have hpn2 := parseNat_natDigits exp (Char.ofNat 125) (by decide)
  have hexplit : ∀ X : List Char,
      (',' :: ("\"exp\":".data ++ X)) = ",\"exp\":".data ++ X := fun X => rfl
  unfold jsonToPayload
  rw [hinput, dropLit_append]
  simp only [Option.some_bind]
  rw [parseStringBody_escape]
  simp only [Option.some_bind]
  rw [dropLit_append]
  simp only [Option.some_bind]
  rw [hpn1]
  simp only [Option.some_bind]
  rw [hexplit, dropLit_append]
  simp only [Option.some_bind]
  rw [hpn2]
  simp only [Option.some_bind]
  rfl

/-! ### Byte and string conversion lemmas -/

/-- Strings with equal character data are equal. -/
theorem strExt {s t : String} (h : s.data = t.data) : s = t := by
  cases s
  cases t
  exact congrArg String.mk h

/-- Every character of a serialized payload is Latin-1 when the subject
is. -/
theorem payloadJson_lt256 (pl : JWTPayload)
    (h : ∀ c ∈ pl.sub.data, charCode c < 256) :
    ∀ c ∈ payloadJson pl, charCode c < 256 := by
  have hlitA : ∀ c ∈ "\x7b\"sub\":\"".data, charCode c < 256 := by decide
  have hlitC : ∀ c ∈ "\",\"iat\":".data, charCode c < 256 := by decide
  have hlitE : ∀ c ∈ ",\"exp\":".data, charCode c < 256 := by decide
  have hlitG : ∀ c ∈ "\x7d".data, charCode c < 256 := by decide
  have hesc : ∀ c ∈ escapeJson pl.sub.data, charCode c < 256 := by
    intro c hc
    simp only [escapeJson] at hc
    rcases List.mem_flatMap.mp hc with ⟨a, ha, hca⟩
    exact escChar_lt256 (h a ha) c hca
  have hdig : ∀ n : Nat, ∀ c ∈ natDigits n, charCode c < 256 := by
    intro n c hc
    have := natDigits_are_digits n c hc
    omega
  intro c hc
  unfold payloadJson at hc
  simp only [List.mem_append] at hc
  rcases hc with ((((((h1 | h2) | h3) | h4) | h5) | h6) | h7)
  · exact hlitA c h1
  · exact hesc c h2
  · exact hlitC c h3
  · exact hdig _ c h4
  · exact hlitE c h5
  · exact hdig _ c h6
  · exact hlitG c h7

/-- `btoa` succeeds on Latin-1 strings, yielding the character codes. -/
theorem stringToBytes_eq (s : String) (h : ∀ c ∈ s.data, charCode c < 256) :
    stringToBytes s = some (s.data.map charCode) := by
  unfold stringToBytes
  rw [if_pos]
  rw [List.all_eq_true]
  intro x hx
  simpa using h x hx

/-- `atob` after `btoa` reproduces a Latin-1 string. -/
theorem bytesToString_map (l : List Char) :
    bytesToString (l.map charCode) = String.mk l := by
  unfold bytesToString
  rw [List.map_map]
  congr 1
  induction l with
  | nil => rfl
  | cons c cs ih =>
    simp only [List.map_cons, Function.comp_apply, ih, List.cons.injEq, and_true]
    exact Char.ofNat_toNat c

/-- Character codes of a Latin-1 string are bytes. -/
theorem map_charCode_lt256 {l : List Char} (h : ∀ c ∈ l, charCode c < 256) :
    ∀ b ∈ l.map charCode, b < 256 := by
  intro b hb
  rcases List.mem_map.mp hb with ⟨c, hc, rfl⟩
  exact h c hc

/-! ### createToken structure -/

/-- A successful `createToken` produces exactly the dot-joined
header/payload/signature characters. -/
theorem createToken_eq (hmac : String → String → List Nat) (sub secret : String)
    (now ttl : Nat) (hsub : ∀ c ∈ sub.data, charCode c < 256) :
    createToken hmac sub secret now ttl =
      some (String.mk (tokenChars hmac ⟨sub, now + ttl, now⟩ secret)) := by
  have hpl : ∀ c ∈ (payloadToJson ⟨sub, now + ttl, now⟩).data, charCode c < 256 :=
    payloadJson_lt256 ⟨sub, now + ttl, now⟩ hsub
  have hheader : ∀ c ∈ headerJsonStr.data, charCode c < 256 := by decide
  simp only [createToken]
  rw [stringToBytes_eq headerJsonStr hheader,
    stringToBytes_eq (payloadToJson ⟨sub, now + ttl, now⟩) hpl]
  simp only []
  congr 1
  apply strExt
  simp only [String.data_append]
  show (headerB64chars ++ ['.'] ++ payloadB64chars ⟨sub, now + ttl, now⟩) ++ ['.'] ++
      sigChars hmac ⟨sub, now + ttl, now⟩ secret = _
  unfold tokenChars
  simp [List.append_assoc]

/-! ### verifyToken lemmas -/

/-- Token components are dot-free, so the token splits into its three
parts. -/
theorem splitOnDot_tokenChars (hmac : String → String → List Nat)
    (pl : JWTPayload) (secret : String) :
    splitOnDot (tokenChars hmac pl secret) =
      [headerB64chars, payloadB64chars pl, sigChars hmac pl secret] := by
  have hA : '.' ∉ headerB64chars := base64UrlEncode_no_dot _
  have hB : '.' ∉ payloadB64chars pl := base64UrlEncode_no_dot _
  have hC : '.' ∉ sigChars hmac pl secret := base64UrlEncode_no_dot _
  unfold tokenChars
  rw [splitOnDot_append _ hA, splitOnDot_append _ hB, splitOnDot_no_dot hC]

/-- Verifying an unaltered token checks only the expiry. -/
theorem verify_tokenChars (hmac : String → String → List Nat) (pl : JWTPayload)
    (secret : String) (hsub : ∀ c ∈ pl.sub.data, charCode c < 256) (t : Nat) :
    verifyToken hmac (String.mk (tokenChars hmac pl secret)) secret t =
      if pl.exp < t then none else some pl := by
  have hv : verifyToken hmac (String.mk (tokenChars hmac pl secret)) secret t =
      (if String.mk (sigChars hmac pl secret) ≠
          signStr hmac (String.mk headerB64chars ++ "." ++
            String.mk (payloadB64chars pl)) secret
       then none
       else
         match base64UrlDecode (payloadB64chars pl) with
         | none => none
         | some bs =>
           match jsonToPayload (bytesToString bs) with
           | none => none
           | some payload => if payload.exp < t then none else some payload) := by
    unfold verifyToken
    rw [show (String.mk (tokenChars hmac pl secret)).data =
        tokenChars hmac pl secret from rfl, splitOnDot_tokenChars]
  rw [hv, if_neg (fun hne => hne rfl)]
  have hdec : base64UrlDecode (payloadB64chars pl) =
      some ((payloadJson pl).map charCode) :=
    base64UrlDecode_encode _ (map_charCode_lt256 (payloadJson_lt256 pl hsub))
  rw [hdec]
  simp only []
  rw [bytesToString_map]
  rw [show String.mk (payloadJson pl) = payloadToJson pl from rfl,
    jsonToPayload_payloadToJson]

/-- A token whose dot-split has any shape other than three parts
verifies to `none`. -/
theorem verify_of_bad_parts (hmac : String → String → List Nat)
    (token secret : String) (now : Nat) (l : List (List Char))
    (hsplit : splitOnDot token.data = l) (hlen : l.length ≠ 3) :
    verifyToken hmac token secret now = none := by
  unfold verifyToken
  rw [hsplit]
  rcases l with _ | ⟨a, _ | ⟨b, _ | ⟨c, _ | ⟨d, l⟩⟩⟩⟩
  · rfl
  · rfl
  · rfl
  · exact absurd rfl hlen
  · rfl

/-- A token whose third part is not the recomputed signature over its
first two parts verifies to `none`. -/
theorem verify_of_sig_ne (hmac : String → String → List Nat)
    (token secret : String) (now : Nat) {h p s : List Char}
    (hsplit : splitOnDot token.data = [h, p, s])
    (hne : String.mk s ≠ signStr hmac (String.mk h ++ "." ++ String.mk p) secret) :
    verifyToken hmac token secret now = none := by
  have hv : verifyToken hmac token secret now =
      (if String.mk s ≠ signStr hmac (String.mk h ++ "." ++ String.mk p) secret
       then none
       else
         match base64UrlDecode p with
         | none => none
         | some bs =>
           match jsonToPayload (bytesToString bs) with
           | none => none
           | some payload => if payload.exp < now then none else some payload) := by
    unfold verifyToken
    rw [hsplit]
  rw [hv, if_pos hne]

/-- Signature collisions force equal messages and secrets (for a
collision-free mac producing bytes). -/
theorem sigChars_eq_forces (hmac : String → String → List Nat)
    (hinj : ∀ m s m' s', hmac m s = hmac m' s' → m = m' ∧ s = s')
    (hrange : ∀ m s, ∀ b ∈ hmac m s, b < 256) {m m' s s' : String}
    (h : base64UrlEncode (hmac m s) = base64UrlEncode (hmac m' s')) :
    m = m' ∧ s = s' :=
  hinj m s m' s' (base64UrlEncode_inj (hrange m s) (hrange m' s') h)

/-- Altering any single character of a well-formed token makes
verification fail, for a collision-free mac: a change inside the header
or payload breaks the signature check, a change inside the signature
breaks the comparison, and a change that adds or removes a dot breaks
the three-part split. -/
theorem verify_altered (hmac : String → String → List Nat)
    (hinj : ∀ m s m' s', hmac m s = hmac m' s' → m = m' ∧ s = s')
    (hrange : ∀ m s, ∀ b ∈ hmac m s, b < 256)
    {A B C : List Char} (secret : String) (now : Nat)
    (hA : '.' ∉ A) (hB : '.' ∉ B) (hC : '.' ∉ C)
    (hsigl : C = base64UrlEncode (hmac (String.mk A ++ "." ++ String.mk B) secret))
    (i : Nat) (c : Char)
    (hset : (A ++ '.' :: (B ++ '.' :: C)).set i c ≠ A ++ '.' :: (B ++ '.' :: C)) :
    verifyToken hmac (String.mk ((A ++ '.' :: (B ++ '.' :: C)).set i c))
      secret now = none := by
  obtain ⟨hi, hcne⟩ := set_ne_facts hset
  have hilen : i < A.length + (B.length + (C.length + 2)) := by
    have := hi
    simp only [List.length_append, List.length_cons] at this
    omega
  by_cases h1 : i < A.length
  · -- the change falls inside the header part
    have hTset : (A ++ '.' :: (B ++ '.' :: C)).set i c =
        A.set i c ++ '.' :: (B ++ '.' :: C) := by
      rw [List.set_append, if_pos h1]
    by_cases hdot : c = '.'
    · subst hdot
      have hAsplit : A.set i '.' = A.take i ++ '.' :: A.drop (i + 1) :=
        List.set_eq_take_cons_drop '.' h1
      have htake : '.' ∉ A.take i := fun hm => hA (List.mem_of_mem_take hm)
      have hdrop : '.' ∉ A.drop (i + 1) := fun hm => hA (List.mem_of_mem_drop hm)
      have hsplit : splitOnDot ((A ++ '.' :: (B ++ '.' :: C)).set i '.') =
          [A.take i, A.drop (i + 1), B, C] := by
        rw [hTset, hAsplit, List.append_assoc, List.cons_append]
        rw [splitOnDot_append _ htake, splitOnDot_append _ hdrop,
          splitOnDot_append _ hB, splitOnDot_no_dot hC]
      exact verify_of_bad_parts hmac _ secret now _ hsplit (by simp)
    · have hA' : '.' ∉ A.set i c := by
        intro hm
        rcases List.mem_or_eq_of_mem_set hm with hmem | heq
        · exact hA hmem
        · exact hdot heq.symm
      have hAne : A.set i c ≠ A := by
        intro he
        exact hset (by rw [hTset, he])
      have hsplit : splitOnDot ((A ++ '.' :: (B ++ '.' :: C)).set i c) =
          [A.set i c, B, C] := by
        rw [hTset, splitOnDot_append _ hA', splitOnDot_append _ hB,
          splitOnDot_no_dot hC]
      apply verify_of_sig_ne hmac _ secret now hsplit
      intro he
      have hCl : C = base64UrlEncode
          (hmac (String.mk (A.set i c) ++ "." ++ String.mk B) secret) :=
        congrArg String.data he
      rw [hsigl] at hCl
      obtain ⟨hm, _⟩ := sigChars_eq_forces hmac hinj hrange hCl
      have hdata := congrArg String.data hm
      simp only [String.data_append] at hdata
      have hd2 := List.append_cancel_right hdata
      have hd3 := List.append_cancel_right hd2
      exact hAne hd3.symm
  · by_cases h2 : i = A.length
    · -- the first dot is overwritten
      subst h2
      have hTset : (A ++ '.' :: (B ++ '.' :: C)).set A.length c =
          A ++ c :: (B ++ '.' :: C) := by
        rw [List.set_append, if_neg (lt_irrefl A.length), Nat.sub_self]
        rfl
      have hTi : (A ++ '.' :: (B ++ '.' :: C))[A.length] = '.' := by
        rw [List.getElem_append_right (Nat.le_refl A.length)]
        simp
      rw [hTi] at hcne
      have hfree : '.' ∉ A ++ c :: B := by
        intro hm
        rcases List.mem_append.mp hm with hm | hm
        · exact hA hm
        · rcases hm with _ | hm
          · exact hcne rfl
          · exact hB (by assumption)
      have hsplit : splitOnDot ((A ++ '.' :: (B ++ '.' :: C)).set A.length c) =
          [A ++ c :: B, C] := by
        rw [hTset, show A ++ c :: (B ++ '.' :: C) = (A ++ c :: B) ++ '.' :: C by
          simp [List.append_assoc]]
        rw [splitOnDot_append _ hfree, splitOnDot_no_dot hC]
      exact verify_of_bad_parts hmac _ secret now _ hsplit (by simp)
    · have hgt : A.length < i := by omega
      by_cases h3 : i < A.length + 1 + B.length
      · -- the change falls inside the payload part
        obtain ⟨j, hjeq⟩ : ∃ j, i - A.length = j + 1 :=
          ⟨i - A.length - 1, by omega⟩
        have hj : j < B.length := by omega
        have hTset : (A ++ '.' :: (B ++ '.' :: C)).set i c =
            A ++ '.' :: (B.set j c ++ '.' :: C) := by
          rw [List.set_append, if_neg (by omega), hjeq]
          simp only [List.set_cons_succ]
          rw [List.set_append, if_pos hj]
        by_cases hdot : c = '.'
        · subst hdot
          have hBsplit : B.set j '.' = B.take j ++ '.' :: B.drop (j + 1) :=
            List.set_eq_take_cons_drop '.' hj
          have htake : '.' ∉ B.take j := fun hm => hB (List.mem_of_mem_take hm)
          have hdrop : '.' ∉ B.drop (j + 1) := fun hm => hB (List.mem_of_mem_drop hm)
          have hsplit : splitOnDot ((A ++ '.' :: (B ++ '.' :: C)).set i '.') =
              [A, B.take j, B.drop (j + 1), C] := by
            rw [hTset, hBsplit, List.append_assoc, List.cons_append]
            rw [splitOnDot_append _ hA, splitOnDot_append _ htake,
              splitOnDot_append _ hdrop, splitOnDot_no_dot hC]
          exact verify_of_bad_parts hmac _ secret now _ hsplit (by simp)
        · have hB' : '.' ∉ B.set j c := by
            intro hm
            rcases List.mem_or_eq_of_mem_set hm with hmem | heq
            · exact hB hmem
            · exact hdot heq.symm
          have hBne : B.set j c ≠ B := by
            intro he
            exact hset (by rw [hTset, he])
          have hsplit : splitOnDot ((A ++ '.' :: (B ++ '.' :: C)).set i c) =
              [A, B.set j c, C] := by
            rw [hTset, splitOnDot_append _ hA, splitOnDot_append _ hB',
              splitOnDot_no_dot hC]
          apply verify_of_sig_ne hmac _ secret now hsplit
          intro he
          have hCl : C = base64UrlEncode
              (hmac (String.mk A ++ "." ++ String.mk (B.set j c)) secret) :=
            congrArg String.data he
          rw [hsigl] at hCl
          obtain ⟨hm, _⟩ := sigChars_eq_forces hmac hinj hrange hCl
          have hdata := congrArg String.data hm
          simp only [String.data_append, List.append_assoc] at hdata
          have hd2 := List.append_cancel_left hdata
          have hd3 := List.append_cancel_left hd2
          exact hBne hd3.symm
      · by_cases h4 : i = A.length + 1 + B.length
        · -- the second dot is overwritten
          have hjeq : i - A.length = B.length + 1 := by omega
          have hTset : (A ++ '.' :: (B ++ '.' :: C)).set i c =
              A ++ '.' :: (B ++ c :: C) := by
            rw [List.set_append, if_neg (by omega), hjeq]
            simp only [List.set_cons_succ]
            rw [List.set_append, if_neg (lt_irrefl B.length), Nat.sub_self]
            rfl
          have hv1 : i - A.length < ('.' :: (B ++ '.' :: C)).length := by
            simp only [List.length_cons, List.length_append]
            omega
          have hv2 : B.length + 1 < ('.' :: (B ++ '.' :: C)).length := by
            simp only [List.length_cons, List.length_append]
            omega
          have hTi : (A ++ '.' :: (B ++ '.' :: C))[i] = '.' := by
            rw [List.getElem_append_right (by omega)]
            rw [show ('.' :: (B ++ '.' :: C))[i - A.length] =
                ('.' :: (B ++ '.' :: C))[B.length + 1] by congr 1]
            rw [List.getElem_cons_succ,
              List.getElem_append_right (Nat.le_refl B.length)]
            simp
          rw [hTi] at hcne
          have hfree : '.' ∉ B ++ c :: C := by
            intro hm
            rcases List.mem_append.mp hm with hm | hm
            · exact hB hm
            · rcases hm with _ | hm
              · exact hcne rfl
              · exact hC (by assumption)
          have hsplit : splitOnDot ((A ++ '.' :: (B ++ '.' :: C)).set i c) =
              [A, B ++ c :: C] := by
            rw [hTset, splitOnDot_append _ hA, splitOnDot_no_dot hfree]
          exact verify_of_bad_parts hmac _ secret now _ hsplit (by simp)
        · -- the change falls inside the signature part
          obtain ⟨k, hkeq⟩ : ∃ k, i - A.length = B.length + 1 + (k + 1) :=
            ⟨i - A.length - B.length - 2, by omega⟩
          have hk : k < C.length := by omega
          have hTset : (A ++ '.' :: (B ++ '.' :: C)).set i c =
              A ++ '.' :: (B ++ '.' :: C.set k c) := by
            rw [List.set_append, if_neg (by omega), hkeq]
            rw [show B.length + 1 + (k + 1) = B.length + 1 + k + 1 by omega]
            simp only [List.set_cons_succ]
            rw [List.set_append, if_neg (by omega)]
            rw [show B.length + 1 + k - B.length = k + 1 by omega]
            simp only [List.set_cons_succ]
          by_cases hdot : c = '.'
          · subst hdot
            have hCsplit : C.set k '.' = C.take k ++ '.' :: C.drop (k + 1) :=
              List.set_eq_take_cons_drop '.' hk
            have htake : '.' ∉ C.take k := fun hm => hC (List.mem_of_mem_take hm)
            have hdrop : '.' ∉ C.drop (k + 1) := fun hm => hC (List.mem_of_mem_drop hm)
            have hsplit : splitOnDot ((A ++ '.' :: (B ++ '.' :: C)).set i '.') =
                [A, B, C.take k, C.drop (k + 1)] := by
              rw [hTset, hCsplit]
              rw [splitOnDot_append _ hA, splitOnDot_append _ hB,
                splitOnDot_append _ htake, splitOnDot_no_dot hdrop]
            exact verify_of_bad_parts hmac _ secret now _ hsplit (by simp)
          · have hC' : '.' ∉ C.set k c := by
              intro hm
              rcases List.mem_or_eq_of_mem_set hm with hmem | heq
              · exact hC hmem
              · exact hdot heq.symm
            have hCne : C.set k c ≠ C := by
              intro he
              exact hset (by rw [hTset, he])
            have hsplit : splitOnDot ((A ++ '.' :: (B ++ '.' :: C)).set i c) =
                [A, B, C.set k c] := by
              rw [hTset, splitOnDot_append _ hA, splitOnDot_append _ hB,
                splitOnDot_no_dot hC']
            apply verify_of_sig_ne hmac _ secret now hsplit
            intro he
            have hCl : C.set k c =
                base64UrlEncode (hmac (String.mk A ++ "." ++ String.mk B) secret) :=
              congrArg String.data he
            rw [← hsigl] at hCl
            exact hCne hCl

/-- Verifying a token with a different secret fails, for a
collision-free mac. -/
theorem verify_wrong_secret (hmac : String → String → List Nat)
    (hinj : ∀ m s m' s', hmac m s = hmac m' s' → m = m' ∧ s = s')
    (hrange : ∀ m s, ∀ b ∈ hmac m s, b < 256)
    (pl : JWTPayload) (secret secret' : String) (hne : secret' ≠ secret)
    (now : Nat) :
    verifyToken hmac (String.mk (tokenChars hmac pl secret)) secret' now = none := by
  have hsplit : splitOnDot (String.mk (tokenChars hmac pl secret)).data =
      [headerB64chars, payloadB64chars pl, sigChars hmac pl secret] :=
    splitOnDot_tokenChars hmac pl secret
  apply verify_of_sig_ne hmac _ secret' now hsplit
  intro he
  have hCl : base64UrlEncode (hmac (signedMessage pl) secret) =
      base64UrlEncode (hmac (String.mk headerB64chars ++ "." ++
        String.mk (payloadB64chars pl)) secret') :=
    congrArg String.data he
  obtain ⟨_, hs⟩ := sigChars_eq_forces hmac hinj hrange hCl
  exact hne hs.symm

/-! ### Injectivity of the concrete witness mac -/

/-- The bit encoding never produces the separator byte 2. -/
theorem encBits_ne_two (l : List Char) : ∀ b ∈ encBits l, b ≠ 2 := by
  intro b hb
  simp only [encBits] at hb
  rcases List.mem_flatMap.mp hb with ⟨c, _, hbc⟩
  rcases List.mem_append.mp hbc with hrep | hone
  · rw [List.eq_of_mem_replicate hrep]
    decide
  · rcases List.mem_singleton.mp hone with rfl
    decide

/-- Every byte produced by `hmacW` is below 256. -/
theorem hmacW_range : ∀ m s, ∀ b ∈ hmacW m s, b < 256 := by
  have henc : ∀ l : List Char, ∀ b ∈ encBits l, b < 256 := by
    intro l b hb
    simp only [encBits] at hb
    rcases List.mem_flatMap.mp hb with ⟨c, _, hbc⟩
    rcases List.mem_append.mp hbc with hrep | hone
    · rw [List.eq_of_mem_replicate hrep]
      decide
    · rcases List.mem_singleton.mp hone with rfl
      decide
  intro m s b hb
  unfold hmacW at hb
  rcases List.mem_append.mp hb with hm | hs
  · exact henc m.data b hm
  · rcases hs with _ | hs
    · decide
    · exact henc s.data b (by assumption)

/-- Two zero-runs terminated by a one agree exactly when their lengths
and continuations do. -/
theorem replicate_one_inj {v v' : Nat} {X X' : List Nat}
    (h : List.replicate v 0 ++ 1 :: X = List.replicate v' 0 ++ 1 :: X') :
    v = v' ∧ X = X' := by
  induction v generalizing v' with
  | zero =>
    cases v' with
    | zero => simpa using h
    | succ w =>
      rw [List.replicate_succ] at h
      simp only [List.replicate_zero, List.nil_append, List.cons_append,
        List.cons.injEq] at h
      exact absurd h.1 (by decide)
  | succ w ih =>
    cases v' with
    | zero =>
      rw [List.replicate_succ] at h
      simp only [List.replicate_zero, List.nil_append, List.cons_append,
        List.cons.injEq] at h
      exact absurd h.1 (by decide)
    | succ w' =>
      rw [List.replicate_succ, List.replicate_succ] at h
      simp only [List.cons_append, List.cons.injEq, true_and] at h
      obtain ⟨hv, hX⟩ := ih h
      exact ⟨by omega, hX⟩

/-- The bit encoding is injective. -/
theorem encBits_inj : ∀ {l l' : List Char}, encBits l = encBits l' → l = l' := by
  intro l
  induction l with
  | nil =>
    intro l' h
    cases l' with
    | nil => rfl
    | cons c t =>
      exfalso
      have hlen := congrArg List.length h
      simp only [encBits, List.flatMap_nil, List.length_nil, List.flatMap_cons,
        List.length_append, List.length_replicate, List.length_cons,
        List.length_singleton] at hlen
      omega
  | cons c t ih =>
    intro l' h
    cases l' with
    | nil =>
      exfalso
      have hlen := congrArg List.length h
      simp only [encBits, List.flatMap_nil, List.length_nil, List.flatMap_cons,
        List.length_append, List.length_replicate, List.length_cons,
        List.length_singleton] at hlen
      omega
    | cons c' t' =>
      have hshape : List.replicate (charCode c) 0 ++ 1 :: encBits t =
          List.replicate (charCode c') 0 ++ 1 :: encBits t' := by
        have h2 : (List.replicate (charCode c) 0 ++ [1]) ++ encBits t =
            (List.replicate (charCode c') 0 ++ [1]) ++ encBits t' := by
          simpa [encBits, List.flatMap_cons] using h
        simpa [List.append_assoc] using h2
      obtain ⟨hv, hX⟩ := replicate_one_inj hshape
      have hc : c = c' := by
        rw [← Char.ofNat_toNat c, ← Char.ofNat_toNat c']
        exact congrArg Char.ofNat hv
      rw [hc, ih hX]

/-- The concrete witness mac is collision-free. -/
theorem hmacW_inj : ∀ m s m' s', hmacW m s = hmacW m' s' → m = m' ∧ s = s' := by
  have htwo : ∀ {a a' b b' : List Nat}, (∀ x ∈ a, x ≠ 2) → (∀ x ∈ a', x ≠ 2) →
      a ++ 2 :: b = a' ++ 2 :: b' → a = a' ∧ b = b' := by
    intro a
    induction a with
    | nil =>
      intro a' b b' _ ha' h
      cases a' with
      | nil => simpa using h
      | cons y t =>
        exfalso
        simp only [List.nil_append, List.cons_append, List.cons.injEq] at h
        exact ha' y (List.mem_cons_self y t) h.1.symm
    | cons x t ih =>
      intro a' b b' ha ha' h
      cases a' with
      | nil =>
        exfalso
        simp only [List.nil_append, List.cons_append, List.cons.injEq] at h
        exact ha x (List.mem_cons_self x t) h.1
      | cons y t' =>
        simp only [List.cons_append, List.cons.injEq] at h
        obtain ⟨he, hb⟩ := ih (fun z hz => ha z (List.mem_cons_of_mem x hz))
          (fun z hz => ha' z (List.mem_cons_of_mem y hz)) h.2
        exact ⟨by rw [h.1, he], hb⟩
  intro m s m' s' h
  unfold hmacW at h
  obtain ⟨h1, h2⟩ := htwo (encBits_ne_two m.data) (encBits_ne_two m'.data) h
  exact ⟨strExt (encBits_inj h1), strExt (encBits_inj h2)⟩

/-! ### C3: token round trip -/

/-- C3 counterexample: the claim quantifies over every subject string,
but `btoa` throws on characters above U+00FF, so token issuance itself
fails for a subject containing U+65E5 and there is no token whose fresh
verification could succeed. -/
theorem c3_non_latin1_counterexample :
    createToken hmacW (String.mk [Char.ofNat 26085]) "k" 0 86400 = none := by
  decide

/-- C3 (amended): for every subject made of Latin-1 characters, secret, and
positive ttl, and for any collision-free external mac: issuance succeeds
and verifying the fresh token with the same secret yields the payload
with that subject, iat = issue time and exp = issue time + ttl;
verification at any time strictly after exp yields invalid; altering any
single character of the token yields invalid; and verifying with any
different secret yields invalid. -/
theorem c3_token_round_trip (hmac : String → String → List Nat)
    (hinj : ∀ m s m' s', hmac m s = hmac m' s' → m = m' ∧ s = s')
    (hrange : ∀ m s, ∀ b ∈ hmac m s, b < 256)
    (sub secret : String) (hsub : ∀ c ∈ sub.data, charCode c < 256)
    (now ttl : Nat) (httl : 0 < ttl) :
    ∃ token, createToken hmac sub secret now ttl = some token ∧
      verifyToken hmac token secret now = some ⟨sub, now + ttl, now⟩ ∧
      (∀ t, now + ttl < t → verifyToken hmac token secret t = none) ∧
      (∀ i c, token.data.set i c ≠ token.data →
        verifyToken hmac (String.mk (token.data.set i c)) secret now = none) ∧
      (∀ secret', secret' ≠ secret → verifyToken hmac token secret' now = none) := by
  refine ⟨String.mk (tokenChars hmac ⟨sub, now + ttl, now⟩ secret),
    createToken_eq hmac sub secret now ttl hsub, ?_, ?_, ?_, ?_⟩
  · rw [verify_tokenChars hmac ⟨sub, now + ttl, now⟩ secret hsub now,
      if_neg (show ¬((⟨sub, now + ttl, now⟩ : JWTPayload).exp < now) by
        show ¬(now + ttl < now)
        omega)]
  · intro t ht
    rw [verify_tokenChars hmac ⟨sub, now + ttl, now⟩ secret hsub t,
      if_pos (show (⟨sub, now + ttl, now⟩ : JWTPayload).exp < t from ht)]
  · intro i c hset
    exact verify_altered hmac hinj hrange secret now
      (base64UrlEncode_no_dot _) (base64UrlEncode_no_dot _)
      (base64UrlEncode_no_dot _) rfl i c hset
  · intro secret' hne
    exact verify_wrong_secret hmac hinj hrange ⟨sub, now + ttl, now⟩
      secret secret' hne now

/-- Witness for C3 at a concrete mac, subject, secret and ttl; the mac
hypotheses are discharged by the injectivity lemmas for `hmacW`. -/
theorem c3_token_round_trip_witness :
    ∃ token, createToken hmacW "admin" "k" 0 86400 = some token ∧
      verifyToken hmacW token "k" 0 = some ⟨"admin", 0 + 86400, 0⟩ ∧
      (∀ t, 0 + 86400 < t → verifyToken hmacW token "k" t = none) ∧
      (∀ i c, token.data.set i c ≠ token.data →
        verifyToken hmacW (String.mk (token.data.set i c)) "k" 0 = none) ∧
      (∀ secret', secret' ≠ "k" → verifyToken hmacW token secret' 0 = none) :=
  c3_token_round_trip hmacW hmacW_inj hmacW_range "admin" "k" (by decide)
    0 86400 (by decide)
